import Mathlib

/-!
Verification of the parallel range-partitioned prime-computation engine.

The C++ repository contains several structurally identical implementations
of the same pattern: generate fixed-size sub-range tasks, hand each task id
out exactly once through a shared task source, compute the primes of each
sub-range by 6k±1 trial division (or a segmented sieve), collect the
per-task results together with running counters, and serialize the results
sorted by task id.

This file gives a shallow embedding of those components — pure functions
over `Nat`/`Int`, with loops rendered as structural or well-founded
recursion — and proves (or refutes) the specified properties about them.
Machine-integer caveats are noted at each definition: `uint64` values are
modelled as `Nat` (with explicit `% 2^64`/`% 2^32` wherever wrap-around is
the point of the claim), and `std::sqrt` applied to a `double` is modelled
as the exact integer square root `Nat.sqrt`, which agrees with the
truncated floating-point result for all arguments below `2^53` (far above
the documented input ceiling of roughly `2 × 10^9`).
-/

/- ============================================================ -/
/- Integer square root                                          -/
/- ============================================================ -/

/-- Executable integer square root (largest `r` with `r * r ≤ n`), used to
model `static_cast<uint64_t>(std::sqrt(static_cast<double>(n)))`, which is
exact for every argument below `2^53`.  Defined by structural recursion on
a fuel argument so that it reduces inside the kernel. -/
def sqrtLoop : Nat → Nat → Nat → Nat
  | 0, _, r => r
  | fuel + 1, n, r => if (r + 1) * (r + 1) ≤ n then sqrtLoop fuel n (r + 1) else r

/-- Integer square root wrapper: `intSqrt n = Nat.sqrt n` (proved below). -/
def intSqrt (n : Nat) : Nat := sqrtLoop n n 0

lemma sqrtLoop_eq_sqrt (n : Nat) :
    ∀ fuel r, r * r ≤ n → Nat.sqrt n ≤ r + fuel → sqrtLoop fuel n r = Nat.sqrt n := by
  intro fuel
  induction fuel with
  | zero =>
    intro r hr hfuel
    have : r ≤ Nat.sqrt n := Nat.le_sqrt.mpr hr
    simp only [sqrtLoop]
    omega
  | succ fuel ih =>
    intro r hr hfuel
    rw [sqrtLoop]
    by_cases hstep : (r + 1) * (r + 1) ≤ n
    · rw [if_pos hstep]
      exact ih (r + 1) hstep (by omega)
    · rw [if_neg hstep]
      have h1 : Nat.sqrt n < r + 1 := by
        rw [Nat.sqrt_lt]
        omega
      have h2 : r ≤ Nat.sqrt n := Nat.le_sqrt.mpr hr
      omega

lemma intSqrt_eq (n : Nat) : intSqrt n = Nat.sqrt n := by
  unfold intSqrt
  exact sqrtLoop_eq_sqrt n n 0 (by simp) (by simpa using Nat.sqrt_le_self n)

/- ============================================================ -/
/- Primality: 6k±1 trial division                               -/
/- ============================================================ -/

/-- The `6k±1` trial-division loop of `isPrime` in `sequence_prime.cpp`
(lines 55–59), `glm5_libfork_prime.cpp` and `minimax_prime.cpp`:
`for (i = 5; i <= sqrt_n; i += 6) if (n % i == 0 || n % (i+2) == 0) return false`.
The fuel argument only bounds the number of iterations (the loop advances
`i` by 6 while `i ≤ sqrt_n`, so `sqrt_n + 1` iterations always suffice);
it is structural so the function reduces inside the kernel. -/
def trialLoopF : Nat → Nat → Nat → Nat → Bool
  | 0, _, _, _ => true
  | fuel + 1, n, i, sqrt_n =>
    if i ≤ sqrt_n then
      if n % i == 0 || n % (i + 2) == 0 then false
      else trialLoopF fuel n (i + 6) sqrt_n
    else true

/-- `isPrime` of `sequence_prime.cpp` lines 49–61 (identical in
`glm5_libfork_prime.cpp`, `minimax_prime.cpp`, and `is_prime` of
`pony_alpha.cpp`).  `static_cast<uint64_t>(std::sqrt(double(n)))` is
modelled as the exact integer square root (exact for `n < 2^53`). -/
def isPrime (n : Nat) : Bool :=
  if n < 2 then false
  else if n == 2 || n == 3 then true
  else if n % 2 == 0 || n % 3 == 0 then false
  else trialLoopF (intSqrt n + 1) n 5 (intSqrt n)

/-- The `6k±1` loop of `is_prime_optimized` in `prime_calculator.cpp`
lines 158–162, whose guard is the pure integer comparison `i * i <= n`.
For `n` below the documented ceiling the `uint64` product `i * i` is exact
(`i` never exceeds `sqrt n + 6`, so `i * i` stays far below `2^64`), hence
no wrap-around modulus is needed.  The structural fuel argument only
bounds the iteration count. -/
def optLoopF : Nat → Nat → Nat → Bool
  | 0, _, _ => true
  | fuel + 1, n, i =>
    if i * i ≤ n then
      if n % i == 0 || n % (i + 2) == 0 then false
      else optLoopF fuel n (i + 6)
    else true

/-- `is_prime_optimized` of `prime_calculator.cpp` lines 149–164. -/
def is_prime_optimized (n : Nat) : Bool :=
  if n ≤ 1 then false
  else if n ≤ 3 then true
  else if n % 2 == 0 || n % 3 == 0 then false
  else optLoopF n n 5

/-- Characterisation of the trial loop: with enough fuel it succeeds iff no
candidate `i + 6k` (nor its companion `i + 6k + 2`) with `i + 6k ≤ sqrt_n`
divides `n`. -/
lemma trialLoopF_iff (n sqrt_n : Nat) :
    ∀ fuel i, sqrt_n + 1 ≤ i + 6 * fuel →
      (trialLoopF fuel n i sqrt_n = true ↔
        ∀ k, i + 6 * k ≤ sqrt_n →
          n % (i + 6 * k) ≠ 0 ∧ n % (i + 6 * k + 2) ≠ 0) := by
  intro fuel
  induction fuel with
  | zero =>
    intro i hfuel
    simp only [trialLoopF, true_iff]
    intro k hk
    omega
  | succ fuel ih =>
    intro i hfuel
    rw [trialLoopF]
    by_cases hle : i ≤ sqrt_n
    · rw [if_pos hle]
      by_cases hdiv : n % i == 0 || n % (i + 2) == 0
      · rw [if_pos hdiv]
        simp only [Bool.or_eq_true, beq_iff_eq] at hdiv
        constructor
        · intro h; exact absurd h Bool.false_ne_true
        · intro h
          have h0 := h 0 (by omega)
          simp only [Nat.mul_zero, Nat.add_zero] at h0
          rcases hdiv with h' | h'
          · exact absurd h' h0.1
          · exact absurd h' h0.2
      · rw [if_neg hdiv]
        simp only [Bool.or_eq_true, beq_iff_eq, not_or] at hdiv
        rw [ih (i + 6) (by omega)]
        constructor
        · intro h k hk
          match k with
          | 0 =>
            simpa using And.intro hdiv.1 hdiv.2
          | k + 1 =>
            have := h k (by omega)
            constructor
            · have heq : i + 6 + 6 * k = i + 6 * (k + 1) := by ring
              rw [heq] at this; exact this.1
            · have heq : i + 6 + 6 * k + 2 = i + 6 * (k + 1) + 2 := by ring
              rw [heq] at this; exact this.2
        · intro h k hk
          have := h (k + 1) (by omega)
          constructor
          · have heq : i + 6 * (k + 1) = i + 6 + 6 * k := by ring
            rw [heq] at this; exact this.1
          · have heq : i + 6 * (k + 1) + 2 = i + 6 + 6 * k + 2 := by ring
            rw [heq] at this; exact this.2
    · rw [if_neg hle]
      constructor
      · intro _ k hk
        exact absurd hk (by omega)
      · intro _; rfl

/-- Characterisation of the `is_prime_optimized` loop, with the guard
`i * i ≤ n` in place of `i ≤ sqrt_n`. -/
lemma optLoopF_iff (n : Nat) :
    ∀ fuel i, Nat.sqrt n + 1 ≤ i + 6 * fuel →
      (optLoopF fuel n i = true ↔
        ∀ k, (i + 6 * k) * (i + 6 * k) ≤ n →
          n % (i + 6 * k) ≠ 0 ∧ n % (i + 6 * k + 2) ≠ 0) := by
  intro fuel
  induction fuel with
  | zero =>
    intro i hfuel
    simp only [optLoopF, true_iff]
    intro k hk
    have : i + 6 * k ≤ Nat.sqrt n := Nat.le_sqrt.mpr hk
    omega
  | succ fuel ih =>
    intro i hfuel
    rw [optLoopF]
    by_cases hle : i * i ≤ n
    · rw [if_pos hle]
      by_cases hdiv : n % i == 0 || n % (i + 2) == 0
      · rw [if_pos hdiv]
        simp only [Bool.or_eq_true, beq_iff_eq] at hdiv
        constructor
        · intro h; exact absurd h Bool.false_ne_true
        · intro h
          have h0 := h 0 (by simpa using hle)
          simp only [Nat.mul_zero, Nat.add_zero] at h0
          rcases hdiv with h' | h'
          · exact absurd h' h0.1
          · exact absurd h' h0.2
      · rw [if_neg hdiv]
        simp only [Bool.or_eq_true, beq_iff_eq, not_or] at hdiv
        rw [ih (i + 6) (by omega)]
        constructor
        · intro h k hk
          match k with
          | 0 =>
            simpa using And.intro hdiv.1 hdiv.2
          | k + 1 =>
            have harg : i + 6 + 6 * k = i + 6 * (k + 1) := by ring
            have := h k (by rw [harg]; exact hk)
            constructor
            · rw [harg] at this; exact this.1
            · have heq : i + 6 + 6 * k + 2 = i + 6 * (k + 1) + 2 := by omega
              rw [heq] at this; exact this.2
        · intro h k hk
          have harg : i + 6 * (k + 1) = i + 6 + 6 * k := by ring
          have := h (k + 1) (by rw [harg]; exact hk)
          constructor
          · rw [harg] at this; exact this.1
          · have heq : i + 6 * (k + 1) + 2 = i + 6 + 6 * k + 2 := by omega
            rw [heq] at this; exact this.2
    · rw [if_neg hle]
      constructor
      · intro _ k hk
        exfalso
        have : i * i ≤ (i + 6 * k) * (i + 6 * k) := by nlinarith
        omega
      · intro _; rfl

/-- For `n ≥ 5` coprime to 2 and 3, checking all candidates `5 + 6k ≤ sqrt n`
together with their companions `7 + 6k` decides primality. -/
lemma sixk_candidates_prime (n : Nat) (h5 : 5 ≤ n)
    (h2 : n % 2 ≠ 0) (h3 : n % 3 ≠ 0) :
    (∀ k, 5 + 6 * k ≤ Nat.sqrt n →
      n % (5 + 6 * k) ≠ 0 ∧ n % (5 + 6 * k + 2) ≠ 0) ↔ Nat.Prime n := by
  constructor
  · intro h
    rw [Nat.prime_def_le_sqrt]
    refine ⟨by omega, ?_⟩
    intro m hm2 hmsqrt hmdvd
    -- pass to the least prime factor of m, which is also ≤ sqrt n
    have hm1 : m ≠ 1 := by omega
    have hp : Nat.Prime m.minFac := Nat.minFac_prime hm1
    have hpm : m.minFac ≤ m := Nat.minFac_le (by omega)
    have hpdvd : m.minFac ∣ n := dvd_trans (Nat.minFac_dvd m) hmdvd
    have hpsqrt : m.minFac ≤ Nat.sqrt n := le_trans hpm hmsqrt
    set p := m.minFac with hpdef
    have hp2 : p ≠ 2 := by
      intro hpe
      rw [hpe] at hpdvd
      exact h2 (Nat.mod_eq_zero_of_dvd hpdvd)
    have hp3 : p ≠ 3 := by
      intro hpe
      rw [hpe] at hpdvd
      exact h3 (Nat.mod_eq_zero_of_dvd hpdvd)
    have hple : 2 ≤ p := hp.two_le
    have hp5 : 5 ≤ p := by
      rcases Nat.lt_or_ge p 5 with hlt | hge
      · interval_cases p
        · omega
        · omega
        · -- p = 4 is not prime
          exact absurd hp (by decide)
      · exact hge
    -- p is prime and not 2 or 3, hence p % 6 ∈ {1, 5}
    have hpmod2 : p % 2 ≠ 0 := by
      intro hz
      have : (2 : Nat) ∣ p := Nat.dvd_iff_mod_eq_zero.mpr hz
      rcases (Nat.Prime.eq_one_or_self_of_dvd hp 2 this) with h' | h'
      · omega
      · omega
    have hpmod3 : p % 3 ≠ 0 := by
      intro hz
      have : (3 : Nat) ∣ p := Nat.dvd_iff_mod_eq_zero.mpr hz
      rcases (Nat.Prime.eq_one_or_self_of_dvd hp 3 this) with h' | h'
      · omega
      · omega
    have hmod6 : p % 6 = 1 ∨ p % 6 = 5 := by omega
    have hnp : n % p = 0 := Nat.mod_eq_zero_of_dvd hpdvd
    rcases hmod6 with h1 | h5'
    · -- p = 7 + 6k: the companion candidate
      have hge7 : 7 ≤ p := by omega
      obtain ⟨k, hk⟩ : ∃ k, p = 5 + 6 * k + 2 := ⟨(p - 7) / 6, by omega⟩
      have := (h k (by omega)).2
      rw [← hk] at this
      exact this hnp
    · -- p = 5 + 6k: a direct candidate
      obtain ⟨k, hk⟩ : ∃ k, p = 5 + 6 * k := ⟨(p - 5) / 6, by omega⟩
      have := (h k (by omega)).1
      rw [← hk] at this
      exact this hnp
  · intro hp k hk
    have hsqrtlt : Nat.sqrt n < n := Nat.sqrt_lt_self (by omega)
    have hbound : Nat.sqrt n + 2 < n := by
      have hs2 : Nat.sqrt n * Nat.sqrt n ≤ n := by
        have := Nat.sqrt_le' n
        simpa [pow_two] using this
      rcases Nat.lt_or_ge (Nat.sqrt n) 3 with hlt | hge
      · omega
      · have : 3 * Nat.sqrt n ≤ Nat.sqrt n * Nat.sqrt n :=
          Nat.mul_le_mul_right _ hge
        omega
    constructor
    · intro hz
      have hdvd : (5 + 6 * k) ∣ n := Nat.dvd_iff_mod_eq_zero.mpr hz
      rcases hp.eq_one_or_self_of_dvd _ hdvd with h' | h'
      · omega
      · omega
    · intro hz
      have hdvd : (5 + 6 * k + 2) ∣ n := Nat.dvd_iff_mod_eq_zero.mpr hz
      rcases hp.eq_one_or_self_of_dvd _ hdvd with h' | h'
      · omega
      · omega

/-- `isPrime` decides primality. -/
lemma isPrime_iff (n : Nat) : isPrime n = true ↔ Nat.Prime n := by
  unfold isPrime
  rw [intSqrt_eq]
  by_cases h2 : n < 2
  · rw [if_pos h2]
    constructor
    · intro h; exact absurd h Bool.false_ne_true
    · intro hp; exact absurd hp.two_le (by omega)
  · rw [if_neg h2]
    by_cases h23 : n == 2 || n == 3
    · rw [if_pos h23]
      simp only [Bool.or_eq_true, beq_iff_eq] at h23
      constructor
      · intro _
        rcases h23 with h' | h' <;> subst h'
        · exact Nat.prime_two
        · exact Nat.prime_three
      · intro _; rfl
    · rw [if_neg h23]
      simp only [Bool.or_eq_true, beq_iff_eq, not_or] at h23
      by_cases hdv : n % 2 == 0 || n % 3 == 0
      · rw [if_pos hdv]
        simp only [Bool.or_eq_true, beq_iff_eq] at hdv
        constructor
        · intro h; exact absurd h Bool.false_ne_true
        intro hp
        exfalso
        rcases hdv with h' | h'
        · have hdvd : (2 : Nat) ∣ n := Nat.dvd_iff_mod_eq_zero.mpr h'
          rcases hp.eq_one_or_self_of_dvd 2 hdvd with h'' | h'' <;> omega
        · have hdvd : (3 : Nat) ∣ n := Nat.dvd_iff_mod_eq_zero.mpr h'
          rcases hp.eq_one_or_self_of_dvd 3 hdvd with h'' | h'' <;> omega
      · rw [if_neg hdv]
        simp only [Bool.or_eq_true, beq_iff_eq, not_or] at hdv
        have h5 : 5 ≤ n := by
          rcases Nat.lt_or_ge n 5 with hlt | hge
          · interval_cases n <;> omega
          · exact hge
        rw [trialLoopF_iff n (Nat.sqrt n) (Nat.sqrt n + 1) 5 (by omega)]
        rw [← sixk_candidates_prime n h5 hdv.1 hdv.2]

/-- `is_prime_optimized` decides primality. -/
lemma is_prime_optimized_iff (n : Nat) :
    is_prime_optimized n = true ↔ Nat.Prime n := by
  unfold is_prime_optimized
  by_cases h1 : n ≤ 1
  · rw [if_pos h1]
    constructor
    · intro h; exact absurd h Bool.false_ne_true
    · intro hp; exact absurd hp.two_le (by omega)
  · rw [if_neg h1]
    by_cases h3 : n ≤ 3
    · rw [if_pos h3]
      have h23 : n = 2 ∨ n = 3 := by omega
      constructor
      · intro _
        rcases h23 with h' | h' <;> subst h'
        · exact Nat.prime_two
        · exact Nat.prime_three
      · intro _; rfl
    · rw [if_neg h3]
      by_cases hdv : n % 2 == 0 || n % 3 == 0
      · rw [if_pos hdv]
        simp only [Bool.or_eq_true, beq_iff_eq] at hdv
        constructor
        · intro h; exact absurd h Bool.false_ne_true
        intro hp
        exfalso
        rcases hdv with h' | h'
        · have hdvd : (2 : Nat) ∣ n := Nat.dvd_iff_mod_eq_zero.mpr h'
          rcases hp.eq_one_or_self_of_dvd 2 hdvd with h'' | h'' <;> omega
        · have hdvd : (3 : Nat) ∣ n := Nat.dvd_iff_mod_eq_zero.mpr h'
          rcases hp.eq_one_or_self_of_dvd 3 hdvd with h'' | h'' <;> omega
      · rw [if_neg hdv]
        simp only [Bool.or_eq_true, beq_iff_eq, not_or] at hdv
        have h5 : 5 ≤ n := by omega
        have hfuel : Nat.sqrt n + 1 ≤ 5 + 6 * n := by
          have := Nat.sqrt_le_self n
          omega
        rw [optLoopF_iff n n 5 hfuel]
        rw [← sixk_candidates_prime n h5 hdv.1 hdv.2]
        constructor
        · intro h k hk
          exact h k (Nat.le_sqrt.mp hk)
        · intro h k hk
          exact h k (Nat.le_sqrt.mpr hk)

/- ============================================================ -/
/- Range computation                                            -/
/- ============================================================ -/

/-- `computePrimesInRange` of `sequence_prime.cpp` lines 64–74 (identical in
`glm5_libfork_prime.cpp`, `minimax_prime.cpp` and `compute_primes_in_range`
of `pony_alpha.cpp`): `for (n = start; n <= end; ++n) if (isPrime(n))
primes.push_back(n)`. -/
def computePrimesInRange (start end_ : Nat) : List Nat :=
  (List.range' start (end_ + 1 - start)).filter (fun n => isPrime n)

/-- `TASK_CHUNK_SIZE` of `prime_calculator.cpp` line 43. -/
def TASK_CHUNK_SIZE : Nat := 100000

/-- `MAX_NUMBER` of `prime_calculator.cpp` line 42. -/
def MAX_NUMBER : Nat := 2000000000

/-- The composite-marking inner loop of the simple sieve in
`prime_calculator.cpp` lines 189–191:
`for (j = i*i; j <= limit; j += i) is_prime_small[j] = false`. -/
def sieveMark (limit i : Nat) (arr : Array Bool) : Array Bool :=
  (List.range (if i * i ≤ limit then (limit - i * i) / i + 1 else 0)).foldl
    (fun a k => a.setD (i * i + k * i) false) arr

/-- The sieve of Eratosthenes of `segmented_sieve` (`prime_calculator.cpp`
lines 182–193): builds the `is_prime_small` array of size `limit + 1` and
collects `small_primes`. -/
def smallSieve (limit : Nat) : Array Bool × List Nat :=
  (List.range' 2 (limit - 1)).foldl
    (fun st i =>
      if st.1.getD i true then (sieveMark limit i st.1, st.2 ++ [i]) else st)
    (mkArray (limit + 1) true, [])

/-- `lo_lim` of `prime_calculator.cpp` lines 204–205:
`max(prime * prime, (low + prime - 1) / prime * prime)`. -/
def loLim (low p : Nat) : Nat := max (p * p) ((low + p - 1) / p * p)

/-- The set of positions struck for one small prime `p` in the segment
`[low, high]` (`prime_calculator.cpp` lines 203–211):
`for (j = lo_lim; j <= high; j += prime) if (j >= low) segment[j-low] = false`. -/
def strikeList (low high p : Nat) : List Nat :=
  ((List.range (if loLim low p ≤ high then (high - loLim low p) / p + 1 else 0)).map
    (fun k => loLim low p + k * p)).filter (fun j => decide (low ≤ j))

/-- The collection pass over one segment (`prime_calculator.cpp` lines
198–221): positions of `[low, high]` that survive every strike and pass the
re-validation `n >= 2 && is_prime_optimized(n)` are appended in order. -/
def collectSegment (small_primes : List Nat) (low high : Nat) : List Nat :=
  (List.range' low (high + 1 - low)).filter
    (fun n => !(small_primes.any (fun p => (strikeList low high p).contains n))
      && decide (2 ≤ n) && is_prime_optimized n)

/-- `segmented_sieve` of `prime_calculator.cpp` lines 167–225: plain trial
division for spans of at most `TASK_CHUNK_SIZE`, otherwise a segmented
sieve over segments of `segment_size`, re-validating every survivor with
`is_prime_optimized`.  (`std::sqrt(end)` is modelled as the exact integer
square root, exact for `end < 2^53`.) -/
def segmented_sieve (start end_ : Nat) : List Nat :=
  if end_ - start ≤ TASK_CHUNK_SIZE then
    (List.range' start (end_ + 1 - start)).filter (fun n => is_prime_optimized n)
  else
    let limit := intSqrt end_ + 1
    let small_primes := (smallSieve limit).2
    let segment_size := min TASK_CHUNK_SIZE (end_ - start + 1)
    (List.range ((end_ - start) / segment_size + 1)).flatMap
      (fun seg => collectSegment small_primes (start + seg * segment_size)
        (min (start + seg * segment_size + segment_size - 1) end_))

/-- Every collected small prime is at least 2 (they are drawn from the loop
counter `i = 2, …, limit`). -/
lemma smallSieve_mem_ge_two (limit : Nat) :
    ∀ p ∈ (smallSieve limit).2, 2 ≤ p := by
  unfold smallSieve
  have main : ∀ (l : List Nat) (st : Array Bool × List Nat),
      (∀ p ∈ st.2, 2 ≤ p) → (∀ x ∈ l, 2 ≤ x) →
      ∀ p ∈ (l.foldl
        (fun st i =>
          if st.1.getD i true then (sieveMark limit i st.1, st.2 ++ [i]) else st)
        st).2, 2 ≤ p := by
    intro l
    induction l with
    | nil => intro st hst _ p hp; exact hst p hp
    | cons x l ih =>
      intro st hst hl p hp
      simp only [List.foldl_cons] at hp
      refine ih _ ?_ (fun y hy => hl y (List.mem_cons_of_mem x hy)) p hp
      by_cases hx : st.1.getD x true
      · rw [if_pos hx]
        intro q hq
        rcases List.mem_append.mp hq with h' | h'
        · exact hst q h'
        · have hqx : q = x := List.mem_singleton.mp h'
          subst hqx
          exact hl _ (List.mem_cons_self _ _)
      · rw [if_neg hx]
        exact hst
  intro p hp
  refine main _ _ (by simp) ?_ p hp
  intro x hx
  exact (List.mem_range'_1.mp hx).1

/-- A prime at or above `low` is never struck: every struck position is a
multiple `j` of `p` with `j ≥ p * p`. -/
lemma prime_not_struck (low high p q : Nat) (hp : 2 ≤ p) (hq : Nat.Prime q) :
    q ∉ strikeList low high p := by
  intro hmem
  unfold strikeList at hmem
  rcases List.mem_filter.mp hmem with ⟨hmap, _⟩
  rcases List.mem_map.mp hmap with ⟨k, _, hkq⟩
  have hdvdlo : p ∣ loLim low p := by
    unfold loLim
    rcases Nat.le_total (p * p) ((low + p - 1) / p * p) with h | h
    · rw [Nat.max_eq_right h]; exact dvd_mul_left p _
    · rw [Nat.max_eq_left h]; exact dvd_mul_right p p
  have hdvd : p ∣ q := by
    rw [← hkq]
    exact Nat.dvd_add hdvdlo (dvd_mul_left p k)
  have hgeq : p * p ≤ q := by
    have h1 : p * p ≤ loLim low p := le_max_left _ _
    omega
  rcases hq.eq_one_or_self_of_dvd p hdvd with h | h
  · omega
  · subst h
    have := hq.two_le
    nlinarith

/-- With all small primes at least 2, the survivors-plus-revalidation pass
over a segment is exactly trial division over the segment. -/
lemma collectSegment_eq (sp : List Nat) (hsp : ∀ p ∈ sp, 2 ≤ p)
    (low high : Nat) :
    collectSegment sp low high =
      (List.range' low (high + 1 - low)).filter (fun n => is_prime_optimized n) := by
  unfold collectSegment
  apply List.filter_congr
  intro n _
  by_cases hn : is_prime_optimized n
  · rw [hn]
    have hprime : Nat.Prime n := (is_prime_optimized_iff n).mp hn
    have h2n : (decide (2 ≤ n)) = true := by
      simp only [decide_eq_true_eq]
      exact hprime.two_le
    have hsurv : (sp.any (fun p => (strikeList low high p).contains n)) = false := by
      rw [Bool.eq_false_iff]
      intro hany
      rcases List.any_eq_true.mp hany with ⟨p, hpmem, hcont⟩
      have : n ∈ strikeList low high p := by
        simpa using hcont
      exact prime_not_struck low high p n (hsp p hpmem) hprime this
    rw [hsurv, h2n]
    rfl
  · rw [Bool.eq_false_iff.mpr hn]
    simp

/-- Segment size of the sieve branch (`prime_calculator.cpp` line 196):
`min(TASK_CHUNK_SIZE, end - start + 1)`. -/
def segmentSize (start end_ : Nat) : Nat := min TASK_CHUNK_SIZE (end_ - start + 1)

/-- Membership in the concatenation of the collected segments is exactly
primality within `[s, e]`. -/
lemma flatSegments_mem (sp : List Nat) (hsp : ∀ p ∈ sp, 2 ≤ p)
    (s e seg : Nat) (hseg : 0 < seg) (h : s ≤ e) (n : Nat) :
    n ∈ (List.range ((e - s) / seg + 1)).flatMap
        (fun k => collectSegment sp (s + k * seg) (min (s + k * seg + seg - 1) e))
      ↔ Nat.Prime n ∧ s ≤ n ∧ n ≤ e := by
  rw [List.mem_flatMap]
  constructor
  · rintro ⟨k, hk, hmem⟩
    rw [collectSegment_eq sp hsp] at hmem
    rcases List.mem_filter.mp hmem with ⟨hrange, hpn⟩
    rcases List.mem_range'_1.mp hrange with ⟨hlo, hhi⟩
    have hmin : min (s + k * seg + seg - 1) e ≤ e := min_le_right _ _
    refine ⟨(is_prime_optimized_iff n).mp hpn, by omega, by omega⟩
  · rintro ⟨hprime, hsn, hne⟩
    refine ⟨(n - s) / seg, ?_, ?_⟩
    · rw [List.mem_range]
      have : (n - s) / seg ≤ (e - s) / seg :=
        Nat.div_le_div_right (by omega)
      omega
    · rw [collectSegment_eq sp hsp, List.mem_filter, List.mem_range'_1]
      have hdm := Nat.div_add_mod (n - s) seg
      have hmod : (n - s) % seg < seg := Nat.mod_lt _ hseg
      have hmul : (n - s) / seg * seg = seg * ((n - s) / seg) := Nat.mul_comm _ _
      have hlo : s + (n - s) / seg * seg ≤ n := by
        rw [hmul]; omega
      have hhi : n ≤ min (s + (n - s) / seg * seg + seg - 1) e := by
        refine le_min ?_ hne
        rw [hmul]; omega
      refine ⟨⟨hlo, ?_⟩, (is_prime_optimized_iff n).mpr hprime⟩
      set low := s + (n - s) / seg * seg
      set high := min (low + seg - 1) e
      have : low ≤ high := le_trans hlo hhi
      omega

/-- The concatenation of the collected segments is strictly increasing. -/
lemma flatSegments_pairwise (sp : List Nat) (s e seg : Nat) (hseg : 0 < seg) :
    ((List.range ((e - s) / seg + 1)).flatMap
        (fun k => collectSegment sp (s + k * seg) (min (s + k * seg + seg - 1) e))).Pairwise
      (· < ·) := by
  rw [List.flatMap_def, List.pairwise_flatten]
  constructor
  · intro l hl
    rcases List.mem_map.mp hl with ⟨k, _, hkl⟩
    rw [← hkl]
    unfold collectSegment
    exact List.Pairwise.sublist (List.filter_sublist _) (List.pairwise_lt_range' _ _)
  · rw [List.pairwise_map]
    refine (List.pairwise_lt_range _).imp ?_
    intro a b hab x hx y hy
    unfold collectSegment at hx hy
    rcases List.mem_filter.mp hx with ⟨hxr, _⟩
    rcases List.mem_filter.mp hy with ⟨hyr, _⟩
    rcases List.mem_range'_1.mp hxr with ⟨hx1, hx2⟩
    rcases List.mem_range'_1.mp hyr with ⟨hy1, _⟩
    have hxa : x ≤ min (s + a * seg + seg - 1) e := by omega
    have hxam : min (s + a * seg + seg - 1) e ≤ s + a * seg + seg - 1 :=
      min_le_left _ _
    have hstep : (a + 1) * seg ≤ b * seg := Nat.mul_le_mul_right seg (by omega)
    rw [Nat.succ_mul] at hstep
    omega

/-- C1 helper: membership characterisation of `segmented_sieve`. -/
lemma segmented_sieve_mem (s e : Nat) (h : s ≤ e) (n : Nat) :
    n ∈ segmented_sieve s e ↔ Nat.Prime n ∧ s ≤ n ∧ n ≤ e := by
  unfold segmented_sieve
  by_cases hbr : e - s ≤ TASK_CHUNK_SIZE
  · rw [if_pos hbr, List.mem_filter, List.mem_range'_1]
    constructor
    · rintro ⟨⟨h1, h2⟩, hpn⟩
      exact ⟨(is_prime_optimized_iff n).mp hpn, h1, by omega⟩
    · rintro ⟨hprime, h1, h2⟩
      exact ⟨⟨h1, by omega⟩, (is_prime_optimized_iff n).mpr hprime⟩
  · rw [if_neg hbr]
    exact flatSegments_mem _ (smallSieve_mem_ge_two _) s e _
      (lt_min (by decide) (by omega)) h n

/-- C1 helper: `segmented_sieve` output is strictly increasing. -/
lemma segmented_sieve_pairwise (s e : Nat) :
    (segmented_sieve s e).Pairwise (· < ·) := by
  unfold segmented_sieve
  by_cases hbr : e - s ≤ TASK_CHUNK_SIZE
  · rw [if_pos hbr]
    exact List.Pairwise.sublist (List.filter_sublist _) (List.pairwise_lt_range' _ _)
  · rw [if_neg hbr]
    exact flatSegments_pairwise _ s e _ (lt_min (by decide) (by omega))

/-- C1 helper: membership characterisation of `computePrimesInRange`
(unconditional: for `start > end` the loop body never runs and both sides
are empty). -/
lemma computePrimesInRange_mem (s e : Nat) (n : Nat) :
    n ∈ computePrimesInRange s e ↔ Nat.Prime n ∧ s ≤ n ∧ n ≤ e := by
  unfold computePrimesInRange
  rw [List.mem_filter, List.mem_range'_1]
  constructor
  · rintro ⟨⟨h1, h2⟩, hpn⟩
    exact ⟨(isPrime_iff n).mp hpn, h1, by omega⟩
  · rintro ⟨hprime, h1, h2⟩
    exact ⟨⟨h1, by omega⟩, (isPrime_iff n).mpr hprime⟩

/-- C1: for every `start ≤ end`, both range computations
(`computePrimesInRange`, the trial-division variant, and `segmented_sieve`,
the sieve variant) return exactly the primes of the closed interval
`[start, end]`: every returned value is a prime inside the interval, every
prime of the interval occurs, and the output is strictly increasing (hence
each prime appears exactly once, in ascending order). -/
theorem computeRange_exact_primes (s e : Nat) (h : s ≤ e) :
    (∀ n, n ∈ computePrimesInRange s e ↔ Nat.Prime n ∧ s ≤ n ∧ n ≤ e) ∧
    (computePrimesInRange s e).Pairwise (· < ·) ∧
    (∀ n, n ∈ segmented_sieve s e ↔ Nat.Prime n ∧ s ≤ n ∧ n ≤ e) ∧
    (segmented_sieve s e).Pairwise (· < ·) := by
  refine ⟨fun n => computePrimesInRange_mem s e n, ?_, segmented_sieve_mem s e h,
    segmented_sieve_pairwise s e⟩
  unfold computePrimesInRange
  exact List.Pairwise.sublist (List.filter_sublist _) (List.pairwise_lt_range' _ _)

/-- C1 witness: the theorem applied to the concrete interval `[2, 30]`. -/
theorem computeRange_exact_primes_witness :
    2 ≤ 30 ∧
    ((∀ n, n ∈ computePrimesInRange 2 30 ↔ Nat.Prime n ∧ 2 ≤ n ∧ n ≤ 30) ∧
    (computePrimesInRange 2 30).Pairwise (· < ·) ∧
    (∀ n, n ∈ segmented_sieve 2 30 ↔ Nat.Prime n ∧ 2 ≤ n ∧ n ≤ 30) ∧
    (segmented_sieve 2 30).Pairwise (· < ·)) :=
  ⟨by decide, computeRange_exact_primes 2 30 (by decide)⟩

/-- C2: the primality oracle is a total function of the `uint64` value: it
returns `false` for every `n < 2` and decides primality for every `n ≥ 2`,
and the two source variants (`isPrime` with its `sqrt`-bounded loop,
`is_prime_optimized` with its `i * i ≤ n`-bounded loop) agree everywhere. -/
theorem primality_oracle_correct (n : Nat) (h64 : n < 2 ^ 64) :
    (n < 2 → isPrime n = false) ∧
    (isPrime n = true ↔ Nat.Prime n) ∧
    (is_prime_optimized n = true ↔ Nat.Prime n) ∧
    isPrime n = is_prime_optimized n := by
  refine ⟨?_, isPrime_iff n, is_prime_optimized_iff n, ?_⟩
  · intro h2
    unfold isPrime
    rw [if_pos h2]
  · cases h1 : isPrime n
    · cases h2 : is_prime_optimized n
      · rfl
      · exact absurd ((isPrime_iff n).mpr ((is_prime_optimized_iff n).mp h2))
          (by rw [h1]; exact Bool.false_ne_true)
    · rw [(is_prime_optimized_iff n).mpr ((isPrime_iff n).mp h1)]

/-- C2 witness: the theorem applied at `n = 9973`. -/
theorem primality_oracle_correct_witness :
    9973 < 2 ^ 64 ∧
    ((9973 < 2 → isPrime 9973 = false) ∧
    (isPrime 9973 = true ↔ Nat.Prime 9973) ∧
    (is_prime_optimized 9973 = true ↔ Nat.Prime 9973) ∧
    isPrime 9973 = is_prime_optimized 9973) :=
  ⟨by decide, primality_oracle_correct 9973 (by decide)⟩

/- ============================================================ -/
/- Task generation                                              -/
/- ============================================================ -/

/-- Sub-range start of the configurable variants (`sequence_prime.cpp` line
165, `glm5_libfork_prime.cpp` line 127, `minimax_prime.cpp` line 54):
`start = task_id * chunk_size + 2`. -/
def taskStart (chunk id : Nat) : Nat := id * chunk + 2

/-- Sub-range end of the configurable variants (`sequence_prime.cpp` line
166, `glm5_libfork_prime.cpp` line 128, `minimax_prime.cpp` line 55):
`end = (task_id + 1) * chunk_size`. -/
def taskEnd (chunk id : Nat) : Nat := (id + 1) * chunk

/-- Task generation loop of `TaskQueueManager::initialize_tasks`
(`prime_calculator.cpp` lines 86–109): starting from `current_start`, each
task covers `[current_start, min(current_start + TASK_CHUNK_SIZE - 1, max)]`
and the loop continues at `current_end + 1` while `current_start <= max`.
The structural fuel argument only bounds the iteration count (each step
advances by `TASK_CHUNK_SIZE ≥ 1`, so `max + 1` iterations suffice). -/
def initTasksF : Nat → Nat → Nat → List (Nat × Nat)
  | 0, _, _ => []
  | fuel + 1, max, cur =>
    if cur ≤ max then
      (cur, min (cur + TASK_CHUNK_SIZE - 1) max) ::
        initTasksF fuel max (cur + TASK_CHUNK_SIZE)
    else []

/-- `initialize_tasks` of `prime_calculator.cpp`, starting at
`current_start = 2` (generalised over the upper bound, which the source
fixes to `MAX_NUMBER`). -/
def initialize_tasks (max : Nat) : List (Nat × Nat) := initTasksF (max + 1) max 2

/-- The contiguous generator covers exactly `[cur, max]`. -/
lemma initTasksF_cover (max : Nat) :
    ∀ fuel cur, max + 1 ≤ cur + fuel →
      ∀ n, (∃ t ∈ initTasksF fuel max cur, t.1 ≤ n ∧ n ≤ t.2) ↔
        (cur ≤ n ∧ n ≤ max) := by
  intro fuel
  have hC : TASK_CHUNK_SIZE = 100000 := rfl
  induction fuel with
  | zero =>
    intro cur hfuel n
    simp only [initTasksF, List.not_mem_nil, false_and, exists_false, false_iff]
    omega
  | succ fuel ih =>
    intro cur hfuel n
    rw [initTasksF]
    by_cases hcur : cur ≤ max
    · rw [if_pos hcur]
      constructor
      · rintro ⟨t, htmem, ht1, ht2⟩
        rcases List.mem_cons.mp htmem with h' | h'
        · subst h'
          simp only at ht1 ht2
          have := min_le_right (cur + TASK_CHUNK_SIZE - 1) max
          omega
        · have := (ih (cur + TASK_CHUNK_SIZE) (by omega) n).mp ⟨t, h', ht1, ht2⟩
          omega
      · rintro ⟨h1, h2⟩
        by_cases hn : n ≤ min (cur + TASK_CHUNK_SIZE - 1) max
        · exact ⟨_, List.mem_cons_self _ _, le_refl cur |>.trans h1, hn⟩
        · have hge : cur + TASK_CHUNK_SIZE ≤ n := by
            rcases Nat.le_total (cur + TASK_CHUNK_SIZE - 1) max with hm | hm
            · rw [min_eq_left hm] at hn; omega
            · rw [min_eq_right hm] at hn; omega
          obtain ⟨t, htm, ht⟩ :=
            ((ih (cur + TASK_CHUNK_SIZE) (by omega) n).mpr ⟨hge, h2⟩)
          exact ⟨t, List.mem_cons_of_mem _ htm, ht⟩
    · rw [if_neg hcur]
      simp only [List.not_mem_nil, false_and, exists_false, false_iff]
      omega

/-- The contiguous generator produces ordered, pairwise-disjoint ranges. -/
lemma initTasksF_ordered (max : Nat) :
    ∀ fuel cur, (initTasksF fuel max cur).Pairwise (fun a b => a.2 < b.1) ∧
      ∀ t ∈ initTasksF fuel max cur, cur ≤ t.1 := by
  intro fuel
  have hC : TASK_CHUNK_SIZE = 100000 := rfl
  induction fuel with
  | zero =>
    intro cur
    simp [initTasksF]
  | succ fuel ih =>
    intro cur
    rw [initTasksF]
    by_cases hcur : cur ≤ max
    · rw [if_pos hcur]
      obtain ⟨hpw, hlo⟩ := ih (cur + TASK_CHUNK_SIZE)
      constructor
      · refine List.Pairwise.cons ?_ hpw
        intro t htm
        have := hlo t htm
        have := min_le_left (cur + TASK_CHUNK_SIZE - 1) max
        simp only
        omega
      · intro t htm
        rcases List.mem_cons.mp htm with h' | h'
        · subst h'; exact le_refl cur
        · have := hlo t h'
          omega
    · rw [if_neg hcur]
      simp

/-- C3 counterexample: with `totalTasks = 2`, `chunkSize = 25` the
configurable variants generate the sub-ranges `[2, 25]` and `[27, 50]`.
The value 26 lies in the claimed union `[firstCandidate, totalTasks *
chunkSize] = [2, 50]` but in no generated sub-range: the union has a gap,
refuting the claim as stated. -/
theorem taskRanges_gap_counterexample :
    taskStart 25 0 = 2 ∧ taskEnd 25 0 = 25 ∧
    taskStart 25 1 = 27 ∧ taskEnd 25 1 = 50 ∧
    2 ≤ 26 ∧ 26 ≤ 2 * 25 ∧
    ∀ id, id < 2 → ¬(taskStart 25 id ≤ 26 ∧ 26 ≤ taskEnd 25 id) := by decide

/-- C3 amended: the generated sub-ranges are disjoint and ascending, and
consecutive ranges of the configurable variants are separated by exactly
one integer (`taskEnd + 2 = ` next `taskStart`), so their union is
`[2, totalTasks * chunkSize]` minus the boundary points
`{k * chunkSize + 1 | 1 ≤ k < totalTasks}` rather than the full interval.
The contiguous generator `initialize_tasks` of `prime_calculator.cpp`
covers its interval `[2, max]` exactly, with pairwise-disjoint ranges. -/
theorem taskRanges_partition (T c : Nat) (hT : 1 ≤ T) (hc : 1 ≤ c) :
    (∀ id, taskEnd c id + 2 = taskStart c (id + 1) ∧
      (2 ≤ c → taskStart c id ≤ taskEnd c id)) ∧
    (∀ n, (∃ id, id < T ∧ taskStart c id ≤ n ∧ n ≤ taskEnd c id) ↔
      (2 ≤ n ∧ n ≤ T * c ∧ ¬∃ k, 1 ≤ k ∧ k < T ∧ n = k * c + 1)) ∧
    (∀ max, ∀ n, (∃ t ∈ initialize_tasks max, t.1 ≤ n ∧ n ≤ t.2) ↔
      2 ≤ n ∧ n ≤ max) ∧
    (∀ max, (initialize_tasks max).Pairwise (fun a b => a.2 < b.1)) := by
  refine ⟨?_, ?_, ?_, ?_⟩
  · intro id
    constructor
    · unfold taskStart taskEnd; ring
    · intro h2
      unfold taskStart taskEnd
      have : id * c + c = (id + 1) * c := by ring
      omega
  · intro n
    constructor
    · rintro ⟨id, hid, h1, h2⟩
      unfold taskStart at h1
      unfold taskEnd at h2
      have hTc : (id + 1) * c ≤ T * c := Nat.mul_le_mul_right c (by omega)
      refine ⟨by omega, by omega, ?_⟩
      rintro ⟨k, hk1, hkT, hkn⟩
      have hidc : (id + 1) * c = id * c + c := by ring
      have hA : id * c = c * id := Nat.mul_comm id c
      have hB : k * c = c * k := Nat.mul_comm k c
      have hC2 : c * (id + 1) = c * id + c := by ring
      -- id * c + 2 ≤ k * c + 1 forces id < k; k * c + 1 ≤ (id+1) * c forces k ≤ id
      have h1' : id < k := Nat.lt_of_mul_lt_mul_left (a := c) (by omega)
      have h2' : k < id + 1 := Nat.lt_of_mul_lt_mul_left (a := c) (by omega)
      omega
    · rintro ⟨hn2, hnT, hnb⟩
      have hc0 : 0 < c := hc
      have hdm := Nat.div_add_mod (n - 2) c
      have hr : (n - 2) % c < c := Nat.mod_lt _ hc0
      have hcmT : c * T = T * c := Nat.mul_comm c T
      refine ⟨(n - 2) / c, ?_, ?_, ?_⟩
      · -- (n-2)/c < T from c * ((n-2)/c) + 2 ≤ n ≤ T * c
        have hlt : c * ((n - 2) / c) < c * T := by omega
        exact Nat.lt_of_mul_lt_mul_left hlt
      · show (n - 2) / c * c + 2 ≤ n
        have hcm : (n - 2) / c * c = c * ((n - 2) / c) := Nat.mul_comm _ _
        omega
      · show n ≤ ((n - 2) / c + 1) * c
        have hcm : ((n - 2) / c + 1) * c = c * ((n - 2) / c) + c := by ring
        -- were n ≡ 1 mod c at the next boundary, it would be an excluded point
        by_cases hrlast : (n - 2) % c = c - 1
        · exfalso
          apply hnb
          refine ⟨(n - 2) / c + 1, Nat.succ_le_succ (Nat.zero_le _), ?_, by omega⟩
          have hlt2 : c * ((n - 2) / c + 1) < c * T := by
            have hstep : c * ((n - 2) / c + 1) = c * ((n - 2) / c) + c := by ring
            omega
          have := Nat.lt_of_mul_lt_mul_left hlt2
          omega
        · omega
  · intro max n
    exact initTasksF_cover max (max + 1) 2 (by omega) n
  · intro max
    exact (initTasksF_ordered max (max + 1) 2).1

/-- C3 amended witness: the theorem applied at `totalTasks = 4`,
`chunkSize = 25` (the spec's own concrete scenario, task ranges
`[2,25], [27,50], [52,75], [77,100]`). -/
theorem taskRanges_partition_witness :
    1 ≤ 4 ∧ 1 ≤ 25 ∧
    ((∀ id, taskEnd 25 id + 2 = taskStart 25 (id + 1) ∧
      (2 ≤ 25 → taskStart 25 id ≤ taskEnd 25 id)) ∧
    (∀ n, (∃ id, id < 4 ∧ taskStart 25 id ≤ n ∧ n ≤ taskEnd 25 id) ↔
      (2 ≤ n ∧ n ≤ 4 * 25 ∧ ¬∃ k, 1 ≤ k ∧ k < 4 ∧ n = k * 25 + 1)) ∧
    (∀ max, ∀ n, (∃ t ∈ initialize_tasks max, t.1 ≤ n ∧ n ≤ t.2) ↔
      2 ≤ n ∧ n ≤ max) ∧
    (∀ max, (initialize_tasks max).Pairwise (fun a b => a.2 < b.1))) :=
  ⟨by decide, by decide, taskRanges_partition 4 25 (by decide) (by decide)⟩

/- ============================================================ -/
/- Task source                                                  -/
/- ============================================================ -/

/-- One `getNextTask` call of `TaskQueue` in `glm5_libfork_prime.cpp` lines
43–49: `task_id = next_task_id_.fetch_add(1)` always advances the counter,
and the fetched id is rejected (`nullopt`) once it reaches `total_tasks_`.
The returned pair is (result, new counter value). -/
def glmGetNextTask (total c : Nat) : Option Nat × Nat :=
  (if total ≤ c then none else some c, c + 1)

/-- One `getNextTask` call of `TaskQueue` in `minimax_prime.cpp` lines
44–58: under the mutex, if `next_task_id_ >= total_tasks_` the call returns
`nullopt` without advancing; otherwise the task is
`(id, id * chunk + 2, (id + 1) * chunk)` with `id = next_task_id_++`. -/
def mmGetNextTask (total chunk c : Nat) : Option (Nat × Nat × Nat) × Nat :=
  if total ≤ c then (none, c)
  else (some (c, c * chunk + 2, (c + 1) * chunk), c + 1)

/-- The results of `m` successive `getNextTask` calls on the
`glm5_libfork_prime.cpp` queue starting from counter `c`.  Any concurrent
interleaving of callers is some such sequence, each call (an atomic
`fetch_add`) being indivisible. -/
def glmTrace (total : Nat) : Nat → Nat → List (Option Nat)
  | 0, _ => []
  | m + 1, c => (glmGetNextTask total c).1 :: glmTrace total m (glmGetNextTask total c).2

/-- The task-id results of `m` successive `getNextTask` calls on the
`minimax_prime.cpp` queue starting from counter `c` (each call runs under
the queue mutex, so any concurrent interleaving is some such sequence). -/
def mmTrace (total chunk : Nat) : Nat → Nat → List (Option Nat)
  | 0, _ => []
  | m + 1, c =>
    ((mmGetNextTask total chunk c).1.map (fun t => t.1)) ::
      mmTrace total chunk m (mmGetNextTask total chunk c).2

/-- Closed form of the `glm5` trace. -/
lemma glmTrace_eq (total : Nat) :
    ∀ m c, glmTrace total m c =
      (List.range' c (min m (total - c))).map some ++
        List.replicate (m - (total - c)) none := by
  intro m
  induction m with
  | zero => intro c; simp [glmTrace]
  | succ m ih =>
    intro c
    rw [glmTrace]
    by_cases hc : total ≤ c
    · have h1 : total - c = 0 := by omega
      have h2 : total - (c + 1) = 0 := by omega
      simp only [glmGetNextTask, if_pos hc, ih (c + 1), h1, h2, Nat.min_zero,
        List.range'_zero, List.map_nil, List.nil_append, Nat.sub_zero]
      rfl
    · rw [glmGetNextTask]
      simp only [if_neg hc]
      have hmin : min (m + 1) (total - c) = min m (total - (c + 1)) + 1 := by omega
      have hrep : (m + 1) - (total - c) = m - (total - (c + 1)) := by omega
      rw [hmin, List.range'_succ, ih (c + 1), hrep]
      rfl

/-- Closed form of the `minimax` trace: identical to the `glm5` one. -/
lemma mmTrace_eq (total chunk : Nat) :
    ∀ m c, mmTrace total chunk m c =
      (List.range' c (min m (total - c))).map some ++
        List.replicate (m - (total - c)) none := by
  intro m
  induction m with
  | zero => intro c; simp [mmTrace]
  | succ m ih =>
    intro c
    rw [mmTrace]
    by_cases hc : total ≤ c
    · have h1 : total - c = 0 := by omega
      have h2 : total - (c + 1) = 0 := by omega
      rw [mmGetNextTask]
      simp only [if_pos hc, ih c, h1, h2, Nat.min_zero,
        List.range'_zero, List.map_nil, List.nil_append, Nat.sub_zero]
      rfl
    · rw [mmGetNextTask]
      simp only [if_neg hc]
      have hmin : min (m + 1) (total - c) = min m (total - (c + 1)) + 1 := by omega
      have hrep : (m + 1) - (total - c) = m - (total - (c + 1)) := by omega
      rw [hmin, List.range'_succ, ih (c + 1), hrep]
      rfl

/-- C4: across any sequence of `m` `next()` calls starting from a fresh
counter, both task sources yield exactly the ids `0, …, min(m, total) - 1`,
in that order, followed only by `none` (Exhausted).  Hence each id below
`total` is yielded to exactly one caller (the yielded ids are distinct and,
for `m ≥ total`, exhaust `{0, …, total-1}`), and once all ids are consumed
every further call returns `none` immediately — Exhausted is terminal and
`next()` never blocks. -/
theorem taskSource_exactly_once (total chunk m : Nat) :
    glmTrace total m 0 =
      (List.range (min m total)).map some ++ List.replicate (m - total) none ∧
    mmTrace total chunk m 0 =
      (List.range (min m total)).map some ++ List.replicate (m - total) none ∧
    (∀ i, some i ∈ glmTrace total m 0 ↔ i < min m total) ∧
    ((glmTrace total m 0).filter Option.isSome).Nodup ∧
    (∀ i, some i ∈ mmTrace total chunk m 0 ↔ i < min m total) ∧
    ((mmTrace total chunk m 0).filter Option.isSome).Nodup := by
  have hglm : glmTrace total m 0 =
      (List.range (min m total)).map some ++ List.replicate (m - total) none := by
    rw [glmTrace_eq total m 0, List.range_eq_range']
    simp
  have hmm : mmTrace total chunk m 0 =
      (List.range (min m total)).map some ++ List.replicate (m - total) none := by
    rw [mmTrace_eq total chunk m 0, List.range_eq_range']
    simp
  have hmem : ∀ i, some i ∈
      (List.range (min m total)).map some ++ List.replicate (m - total) none ↔
        i < min m total := by
    intro i
    rw [List.mem_append]
    constructor
    · rintro (h | h)
      · rcases List.mem_map.mp h with ⟨j, hj, hji⟩
        rw [← Option.some.inj hji]
        exact List.mem_range.mp hj
      · exact absurd (List.mem_replicate.mp h).2 (fun h => Option.noConfusion h)
    · intro h
      exact Or.inl (List.mem_map.mpr ⟨i, List.mem_range.mpr h, rfl⟩)
  have hnd : (((List.range (min m total)).map some ++
      List.replicate (m - total) none).filter Option.isSome).Nodup := by
    rw [List.filter_append]
    have h1 : ((List.range (min m total)).map some).filter Option.isSome =
        (List.range (min m total)).map some := by
      apply List.filter_eq_self.mpr
      intro o ho
      rcases List.mem_map.mp ho with ⟨j, _, hj⟩
      rw [← hj]
      rfl
    have h2 : (List.replicate (m - total) (none : Option Nat)).filter
        Option.isSome = [] := by
      apply List.filter_eq_nil_iff.mpr
      intro o ho
      rw [(List.mem_replicate.mp ho).2]
      simp
    rw [h1, h2, List.append_nil]
    exact (List.nodup_range _).map (fun a b => Option.some.inj)
  refine ⟨hglm, hmm, ?_, ?_, ?_, ?_⟩
  · intro i; rw [hglm]; exact hmem i
  · rw [hglm]; exact hnd
  · intro i; rw [hmm]; exact hmem i
  · rw [hmm]; exact hnd

/- ============================================================ -/
/- Task results, aggregation and serialization order            -/
/- ============================================================ -/

/-- `TaskResult` of `sequence_prime.cpp` lines 29–35 (identical in
`glm5_libfork_prime.cpp` and `minimax_prime.cpp`; `end` is a reserved word
in Lean and is rendered `end_`). -/
structure TaskResult where
  task_id : Nat
  start : Nat
  end_ : Nat
  core_id : Nat
  primes : List Nat

/-- The `TaskResult` a worker deposits for task `id` with chunk size
`chunk` on core `core`, with the fields exactly as filled in `workerTask`
of `glm5_libfork_prime.cpp` lines 126–144 (and `sequentialCompute` of
`sequence_prime.cpp` lines 164–179 with `core = 0`). -/
def mkTaskResult (chunk id core : Nat) : TaskResult :=
  { task_id := id, start := taskStart chunk id, end_ := taskEnd chunk id,
    core_id := core,
    primes := computePrimesInRange (taskStart chunk id) (taskEnd chunk id) }

/-- The sort of `outputResults` (`sequence_prime.cpp` lines 114–117,
identical in `glm5_libfork_prime.cpp` lines 227–230 and
`minimax_prime.cpp` lines 197–200):
`std::sort(g_results.begin(), g_results.end(), [](a, b){ return a.task_id < b.task_id; })`,
modelled by a merge sort with the corresponding non-strict comparison (any
comparison sort satisfies the same postcondition). -/
def outputSort (rs : List TaskResult) : List TaskResult :=
  rs.mergeSort (fun a b => decide (a.task_id ≤ b.task_id))

/-- `write_result_to_csv` of `pony_alpha.cpp` lines 141–166 appends one
CSV row per result in the order results arrive on core 0, with no sorting
step anywhere in that program: the serialized order is the completion
order.  Modelled as the fold appending each arriving result to the file. -/
def ponySerializeOrder (arrivals : List TaskResult) : List TaskResult :=
  arrivals.foldl (fun acc r => acc ++ [r]) []

/-- The pony serialization order is exactly the arrival order. -/
lemma ponySerializeOrder_eq (arrivals : List TaskResult) :
    ponySerializeOrder arrivals = arrivals := by
  unfold ponySerializeOrder
  have main : ∀ (l acc : List TaskResult),
      l.foldl (fun acc r => acc ++ [r]) acc = acc ++ l := by
    intro l
    induction l with
    | nil => intro acc; simp
    | cons x l ih =>
      intro acc
      rw [List.foldl_cons, ih, List.append_assoc, List.singleton_append]
  rw [main]
  rfl

/-- C5 counterexample: `pony_alpha.cpp` serializes results in completion
order; when task 1 (computed on core 1) completes before task 0 with
`chunkSize = 25`, the serialized sequence is `[task 1, task 0]`, which is
not sorted by ascending taskId (or start). -/
theorem drain_order_counterexample :
    ponySerializeOrder [mkTaskResult 25 1 1, mkTaskResult 25 0 0] =
      [mkTaskResult 25 1 1, mkTaskResult 25 0 0] ∧
    ¬(ponySerializeOrder [mkTaskResult 25 1 1, mkTaskResult 25 0 0]).Pairwise
        (fun a b => a.task_id ≤ b.task_id) := by
  constructor
  · exact ponySerializeOrder_eq _
  · rw [ponySerializeOrder_eq]
    intro h
    have h1 := (List.pairwise_cons.mp h).1 _ (List.mem_cons_self _ _)
    exact absurd h1 (by decide)

/-- C5 amended: the collecting variants (`sequence_prime`,
`glm5_libfork_prime`, `minimax_prime`) sort the recorded results by
ascending `task_id` in `outputResults` before serializing, so for every
completion order the drained sequence is ascending by taskId and is a
permutation of the recorded results.  `pony_alpha` serializes in
completion order with no sort, so its output is ascending only when the
completion order already is. -/
theorem drain_sorted_by_taskId (rs : List TaskResult) :
    (outputSort rs).Pairwise (fun a b => a.task_id ≤ b.task_id) ∧
    (outputSort rs).Perm rs ∧
    (∀ arrivals : List TaskResult, ponySerializeOrder arrivals = arrivals) := by
  refine ⟨?_, List.mergeSort_perm rs _, ponySerializeOrder_eq⟩
  have hs := @List.sorted_mergeSort TaskResult
    (fun a b : TaskResult => decide (a.task_id ≤ b.task_id))
    (fun a b c hab hbc => by
      simp only [decide_eq_true_eq] at hab hbc ⊢
      omega)
    (fun a b => by
      simp only [Bool.or_eq_true, decide_eq_true_eq]
      omega)
    rs
  exact hs.imp (fun h => by simpa using h)

/-- One iteration of the task loop of `sequentialCompute`
(`sequence_prime.cpp` lines 163–192): compute the task's sub-range and its
primes, append the `TaskResult` (core 0), then add 1 to
`g_completed_tasks` and the primes count to `g_total_primes`.  State is
`(g_results, g_completed_tasks, g_total_primes)`. -/
def seqStep (chunk : Nat) (st : List TaskResult × Nat × Nat) (task_id : Nat) :
    List TaskResult × Nat × Nat :=
  (st.1 ++ [mkTaskResult chunk task_id 0], st.2.1 + 1,
    st.2.2 + (mkTaskResult chunk task_id 0).primes.length)

/-- `sequentialCompute` of `sequence_prime.cpp` lines 161–194: runs every
task id `0, …, num_tasks - 1` in order from the zeroed counters. -/
def sequentialCompute (num_tasks chunk : Nat) : List TaskResult × Nat × Nat :=
  (List.range num_tasks).foldl (seqStep chunk) ([], 0, 0)

/-- Closed form of the `sequentialCompute` fold. -/
lemma foldl_seqStep (c : Nat) :
    ∀ (l : List Nat) (st : List TaskResult × Nat × Nat),
      l.foldl (seqStep c) st =
        (st.1 ++ l.map (fun id => mkTaskResult c id 0), st.2.1 + l.length,
          st.2.2 + (l.map (fun id => (mkTaskResult c id 0).primes.length)).sum) := by
  intro l
  induction l with
  | nil => intro st; simp
  | cons x l ih =>
    intro st
    rw [List.foldl_cons, ih]
    unfold seqStep
    simp only [List.map_cons, List.length_cons, List.sum_cons,
      List.append_assoc, List.singleton_append]
    refine Prod.ext rfl (Prod.ext ?_ ?_) <;> simp only <;> omega

/-- C6 counterexample: with `totalTasks = 2`, `chunkSize = 4` every result
is recorded (completedCount = 2 = totalTasks), yet the union of the
`primes` fields is `{2, 3} ∪ {7} = {2, 3, 7}` while the primes of the full
interval `[2, totalTasks * chunkSize] = [2, 8]` are `{2, 3, 5, 7}`: the
prime 5 falls in the gap between task 0 (`[2, 4]`) and task 1 (`[6, 8]`),
so the multiset union does not equal the primes of the full interval. -/
theorem record_union_counterexample :
    (sequentialCompute 2 4).2.1 = 2 ∧
    Nat.Prime 5 ∧ 2 ≤ 5 ∧ 5 ≤ 2 * 4 ∧
    5 ∉ (sequentialCompute 2 4).1.flatMap TaskResult.primes := by
  refine ⟨?_, by decide, by decide, by decide, ?_⟩
  · rfl
  · decide

/-- C6 amended: after a full run, `completedCount` equals `totalTasks`,
`totalPrimes` equals the total number of recorded primes, the results
carry the task ids `0, …, totalTasks - 1` in order, and the multiset union
of the `primes` fields is exactly the set of primes lying in SOME task
sub-range (each prime at most once overall, since the sub-ranges are
disjoint) — which is the primes of the full interval minus any primes
among the omitted boundary points `k * chunkSize + 1`. -/
theorem record_aggregates (T c : Nat) :
    (sequentialCompute T c).2.1 = T ∧
    (sequentialCompute T c).2.2 =
      ((sequentialCompute T c).1.flatMap TaskResult.primes).length ∧
    (sequentialCompute T c).1.map TaskResult.task_id = List.range T ∧
    (∀ n, n ∈ (sequentialCompute T c).1.flatMap TaskResult.primes ↔
      Nat.Prime n ∧ ∃ id, id < T ∧ taskStart c id ≤ n ∧ n ≤ taskEnd c id) ∧
    ((sequentialCompute T c).1.flatMap TaskResult.primes).Nodup := by
  have hclosed := foldl_seqStep c (List.range T) ([], 0, 0)
  unfold sequentialCompute
  rw [hclosed]
  simp only [List.nil_append, Nat.zero_add, List.length_range]
  refine ⟨?_, ?_, ?_, ?_, ?_⟩
  · trivial
  · rw [List.length_flatMap, List.map_map]
    rfl
  · rw [List.map_map]
    have : (TaskResult.task_id ∘ fun id => mkTaskResult c id 0) = fun id => id := by
      funext id; rfl
    rw [this, List.map_id']
  · intro n
    rw [List.mem_flatMap]
    constructor
    · rintro ⟨r, hr, hn⟩
      rcases List.mem_map.mp hr with ⟨id, hid, hmk⟩
      rw [← hmk] at hn
      have := (computePrimesInRange_mem (taskStart c id) (taskEnd c id) n).mp hn
      exact ⟨this.1, id, List.mem_range.mp hid, this.2.1, this.2.2⟩
    · rintro ⟨hprime, id, hid, h1, h2⟩
      refine ⟨mkTaskResult c id 0, List.mem_map.mpr ⟨id, List.mem_range.mpr hid, rfl⟩, ?_⟩
      exact (computePrimesInRange_mem _ _ n).mpr ⟨hprime, h1, h2⟩
  · -- each task list is strictly increasing, and primes of distinct tasks
    -- live in disjoint ranges
    rw [List.flatMap_def, List.map_map, List.nodup_flatten]
    constructor
    · intro l hl
      rcases List.mem_map.mp hl with ⟨id, _, hid⟩
      rw [← hid]
      have hpw : (computePrimesInRange (taskStart c id)
          (taskEnd c id)).Pairwise (· < ·) := by
        unfold computePrimesInRange
        exact List.Pairwise.sublist (List.filter_sublist _)
          (List.pairwise_lt_range' _ _)
      exact hpw.imp Nat.ne_of_lt
    · rw [List.pairwise_map]
      refine (List.pairwise_lt_range _).imp ?_
      intro a b hab x hx hy
      have hxa := (computePrimesInRange_mem (taskStart c a) (taskEnd c a) x).mp hx
      have hya := (computePrimesInRange_mem (taskStart c b) (taskEnd c b) x).mp hy
      have h1 : (a + 1) * c ≤ b * c := Nat.mul_le_mul_right c (by omega)
      unfold taskStart at hya
      unfold taskEnd at hxa
      omega

/- ============================================================ -/
/- Benchmark counting variants (prime_bench / prime_bench_lf)   -/
/- ============================================================ -/

/-- The odd-divisor trial loop of `count_primes_in_range`
(`prime_bench.cpp` lines 58–63, `prime_bench_lf.cpp` lines 49–54, and the
inner loop of `find_primes` in `test_simple.cpp`):
`for (j = 3; j <= limit; j += 2) if (i % j == 0) { not prime }`.  The
structural fuel argument only bounds the iteration count. -/
def oddTrialF : Nat → Nat → Nat → Nat → Bool
  | 0, _, _, _ => true
  | fuel + 1, i, j, limit =>
    if j ≤ limit then
      if i % j == 0 then false else oddTrialF fuel i (j + 2) limit
    else true

/-- The per-candidate odd trial of the benchmark loops, with
`limit = (int)std::sqrt(i)` modelled as the exact integer square root
(exact for `i < 2^53`). -/
def isOddCandidatePrime (i : Nat) : Bool :=
  oddTrialF (intSqrt i + 1) i 3 (intSqrt i)

/-- The outer candidate loop of `count_primes_in_range`:
`for (i = actual_start; i <= end; i += 2) if (is_prime) count++`. -/
def oddCountF : Nat → Nat → Nat → Nat
  | 0, _, _ => 0
  | fuel + 1, i, e =>
    if i ≤ e then
      (if isOddCandidatePrime i then 1 else 0) + oddCountF fuel (i + 2) e
    else 0

/-- `count_primes_in_range` of `prime_bench.cpp` lines 41–67 (identical in
`prime_bench_lf.cpp` lines 32–58): clamp the start to 2, count the single
even prime 2 when it is in range, then trial-divide the odd candidates. -/
def count_primes_in_range (start end_ : Nat) : Nat :=
  if end_ < start then 0
  else
    let start' := if start < 2 then 2 else start
    let count2 := if start' ≤ 2 ∧ 2 ≤ end_ then 1 else 0
    let a0 := if start' % 2 == 0 then start' + 1 else start'
    let a := if a0 < 3 then 3 else a0
    count2 + oddCountF (end_ + 1) a end_

/-- Reference counting function: the number of primes in `[s, e]`. -/
def primeCountIn (s e : Nat) : Nat :=
  ((List.range' s (e + 1 - s)).filter (fun n => decide (Nat.Prime n))).length

lemma primeCountIn_of_lt (s e : Nat) (h : e < s) : primeCountIn s e = 0 := by
  unfold primeCountIn
  have : e + 1 - s = 0 := by omega
  rw [this]
  rfl

lemma primeCountIn_step (s e : Nat) (h : s ≤ e) :
    primeCountIn s e =
      (if Nat.Prime s then 1 else 0) + primeCountIn (s + 1) e := by
  unfold primeCountIn
  have h1 : e + 1 - s = (e - s) + 1 := by omega
  have h2 : e + 1 - (s + 1) = e - s := by omega
  rw [h1, h2, List.range'_succ, List.filter_cons]
  by_cases hp : Nat.Prime s
  · rw [if_pos (by simpa using hp), if_pos hp, List.length_cons]
    omega
  · rw [if_neg (by simpa using hp), if_neg hp]
    omega

/-- Contiguous splitting of the reference count. -/
lemma primeCountIn_append (a b e : Nat) (h1 : a ≤ b + 1) (h2 : b ≤ e) :
    primeCountIn a e = primeCountIn a b + primeCountIn (b + 1) e := by
  unfold primeCountIn
  have hm : e - b + (b + 1 - a) = e + 1 - a := by omega
  have hs : a + (b + 1 - a) = b + 1 := by omega
  have := List.range'_append a (b + 1 - a) (e - b) 1
  rw [Nat.one_mul, hs] at this
  have he : e + 1 - (b + 1) = e - b := by omega
  rw [he, ← hm, ← this, List.filter_append, List.length_append]

/-- Characterisation of the odd trial loop. -/
lemma oddTrialF_iff (i limit : Nat) :
    ∀ fuel j, limit + 1 ≤ j + 2 * fuel →
      (oddTrialF fuel i j limit = true ↔
        ∀ k, j + 2 * k ≤ limit → i % (j + 2 * k) ≠ 0) := by
  intro fuel
  induction fuel with
  | zero =>
    intro j hfuel
    simp only [oddTrialF, true_iff]
    intro k hk
    omega
  | succ fuel ih =>
    intro j hfuel
    rw [oddTrialF]
    by_cases hle : j ≤ limit
    · rw [if_pos hle]
      by_cases hdiv : i % j == 0
      · rw [if_pos hdiv]
        simp only [beq_iff_eq] at hdiv
        constructor
        · intro h; exact absurd h Bool.false_ne_true
        · intro h
          have h0 := h 0 (by omega)
          simp only [Nat.mul_zero, Nat.add_zero] at h0
          exact absurd hdiv h0
      · rw [if_neg hdiv]
        simp only [beq_iff_eq] at hdiv
        rw [ih (j + 2) (by omega)]
        constructor
        · intro h k hk
          match k with
          | 0 => simpa using hdiv
          | k + 1 =>
            have := h k (by omega)
            have heq : j + 2 + 2 * k = j + 2 * (k + 1) := by ring
            rw [heq] at this
            exact this
        · intro h k hk
          have := h (k + 1) (by omega)
          have heq : j + 2 * (k + 1) = j + 2 + 2 * k := by ring
          rw [heq] at this
          exact this
    · rw [if_neg hle]
      constructor
      · intro _ k hk
        exact absurd hk (by omega)
      · intro _; rfl

/-- For odd `i ≥ 3`, checking all odd candidates `3 + 2k ≤ sqrt i` decides
primality (an even divisor would force `i` even). -/
lemma odd_candidates_prime (i : Nat) (h3 : 3 ≤ i) (hodd : i % 2 = 1) :
    (∀ k, 3 + 2 * k ≤ Nat.sqrt i → i % (3 + 2 * k) ≠ 0) ↔ Nat.Prime i := by
  constructor
  · intro h
    rw [Nat.prime_def_le_sqrt]
    refine ⟨by omega, ?_⟩
    intro m hm2 hmsqrt hmdvd
    have hm1 : m ≠ 1 := by omega
    have hp : Nat.Prime m.minFac := Nat.minFac_prime hm1
    have hpm : m.minFac ≤ m := Nat.minFac_le (by omega)
    have hpdvd : m.minFac ∣ i := dvd_trans (Nat.minFac_dvd m) hmdvd
    have hpsqrt : m.minFac ≤ Nat.sqrt i := le_trans hpm hmsqrt
    set p := m.minFac with hpdef
    have hp2 : p ≠ 2 := by
      intro hpe
      rw [hpe] at hpdvd
      have := Nat.mod_eq_zero_of_dvd hpdvd
      omega
    have hple : 2 ≤ p := hp.two_le
    have hpodd : p % 2 = 1 := by
      rcases Nat.mod_two_eq_zero_or_one p with h' | h'
      · exfalso
        have h2p : (2 : Nat) ∣ p := Nat.dvd_iff_mod_eq_zero.mpr h'
        rcases hp.eq_one_or_self_of_dvd 2 h2p with h'' | h'' <;> omega
      · exact h'
    have hp3 : 3 ≤ p := by omega
    obtain ⟨k, hk⟩ : ∃ k, p = 3 + 2 * k := ⟨(p - 3) / 2, by omega⟩
    have := h k (by omega)
    rw [← hk] at this
    exact this (Nat.mod_eq_zero_of_dvd hpdvd)
  · intro hp k hk
    intro hz
    have hdvd : (3 + 2 * k) ∣ i := Nat.dvd_iff_mod_eq_zero.mpr hz
    have hsqrtlt : Nat.sqrt i < i := Nat.sqrt_lt_self (by omega)
    rcases hp.eq_one_or_self_of_dvd _ hdvd with h' | h'
    · omega
    · omega

/-- For odd `i ≥ 3` the benchmark per-candidate trial decides primality. -/
lemma isOddCandidatePrime_iff (i : Nat) (h3 : 3 ≤ i) (hodd : i % 2 = 1) :
    isOddCandidatePrime i = true ↔ Nat.Prime i := by
  unfold isOddCandidatePrime
  rw [intSqrt_eq]
  rw [oddTrialF_iff i (Nat.sqrt i) (Nat.sqrt i + 1) 3 (by omega)]
  exact odd_candidates_prime i h3 hodd

/-- With enough fuel, the odd candidate loop starting at an odd `a ≥ 3`
counts exactly the primes in `[a, e]` (all of which are odd). -/
lemma oddCountF_eq (e : Nat) :
    ∀ fuel a, 3 ≤ a → a % 2 = 1 → e + 1 ≤ a + 2 * fuel →
      oddCountF fuel a e = primeCountIn a e := by
  intro fuel
  induction fuel with
  | zero =>
    intro a h3 hodd hfuel
    rw [oddCountF]
    exact (primeCountIn_of_lt a e (by omega)).symm
  | succ fuel ih =>
    intro a h3 hodd hfuel
    rw [oddCountF]
    by_cases hae : a ≤ e
    · rw [if_pos hae]
      rw [ih (a + 2) (by omega) (by omega) (by omega)]
      have hnp : ¬ Nat.Prime (a + 1) := by
        intro hp
        have h2d : (2 : Nat) ∣ a + 1 := by
          rcases Nat.mod_two_eq_zero_or_one (a + 1) with h' | h'
          · exact Nat.dvd_iff_mod_eq_zero.mpr h'
          · omega
        rcases hp.eq_one_or_self_of_dvd 2 h2d with h' | h' <;> omega
      have hstep1 := primeCountIn_step a e hae
      have hcand : (if isOddCandidatePrime a then 1 else 0) =
          (if Nat.Prime a then 1 else 0) := by
        by_cases hp : Nat.Prime a
        · rw [if_pos hp, if_pos ((isOddCandidatePrime_iff a h3 hodd).mpr hp)]
        · rw [if_neg hp, if_neg ?_]
          intro hc
          exact hp ((isOddCandidatePrime_iff a h3 hodd).mp hc)
      rw [hcand, hstep1]
      have hplus : a + 1 + 1 = a + 2 := by omega
      by_cases hae1 : a + 1 ≤ e
      · rw [primeCountIn_step (a + 1) e hae1, if_neg hnp, hplus]
        omega
      · rw [primeCountIn_of_lt (a + 1) e (by omega),
          primeCountIn_of_lt (a + 2) e (by omega)]
    · rw [if_neg hae]
      exact (primeCountIn_of_lt a e (by omega)).symm

/-- The benchmark counting routine counts exactly the primes in `[s, e]`. -/
lemma count_primes_in_range_eq (s e : Nat) :
    count_primes_in_range s e = primeCountIn s e := by
  unfold count_primes_in_range
  by_cases hse : e < s
  · rw [if_pos hse]
    exact (primeCountIn_of_lt s e hse).symm
  · rw [if_neg hse]
    simp only
    by_cases hs2 : s < 2
    · simp only [if_pos hs2]
      have e1 : (if ((2 : Nat) % 2 == 0) = true then 2 + 1 else 2) = 3 := rfl
      have e2 : (if (3 : Nat) < 3 then 3 else 3) = 3 := rfl
      rw [e1, e2, oddCountF_eq e (e + 1) 3 (by omega) (by omega) (by omega)]
      by_cases h2e : 2 ≤ e
      · rw [if_pos (by omega : (2 : Nat) ≤ 2 ∧ 2 ≤ e)]
        have h23 : primeCountIn 2 e = 1 + primeCountIn 3 e := by
          rw [primeCountIn_step 2 e h2e, if_pos Nat.prime_two]
        have hs02 : primeCountIn s e = primeCountIn 2 e := by
          interval_cases s
          · rw [primeCountIn_step 0 e (by omega),
              if_neg (by decide : ¬ Nat.Prime 0)]
            have h01 : (0 : Nat) + 1 = 1 := rfl
            rw [h01, primeCountIn_step 1 e (by omega),
              if_neg (by decide : ¬ Nat.Prime 1)]
            have h12 : (1 : Nat) + 1 = 2 := rfl
            rw [h12]
            omega
          · rw [primeCountIn_step 1 e (by omega),
              if_neg (by decide : ¬ Nat.Prime 1)]
            have h12 : (1 : Nat) + 1 = 2 := rfl
            rw [h12]
            omega
        omega
      · rw [if_neg (by omega : ¬((2 : Nat) ≤ 2 ∧ 2 ≤ e))]
        rw [primeCountIn_of_lt 3 e (by omega)]
        have hz : primeCountIn s e = 0 := by
          unfold primeCountIn
          rw [List.filter_eq_nil_iff.mpr ?_]
          · rfl
          · intro n hn
            rcases List.mem_range'_1.mp hn with ⟨hn1, hn2⟩
            simp only [decide_eq_true_eq]
            intro hp
            have := hp.two_le
            omega
        omega
    · simp only [if_neg hs2]
      rcases Nat.mod_two_eq_zero_or_one s with hpar | hpar
      · -- s even ≥ 2: the odd scan starts at s + 1
        have e1 : (if (s % 2 == 0) = true then s + 1 else s) = s + 1 := by
          simp [hpar]
        have e2 : (if s + 1 < 3 then 3 else s + 1) = s + 1 := by
          rw [if_neg (by omega)]
        rw [e1, e2, oddCountF_eq e (e + 1) (s + 1) (by omega) (by omega) (by omega)]
        by_cases hs2' : s ≤ 2
        · have hseq : s = 2 := by omega
          subst hseq
          rw [if_pos (by omega : (2 : Nat) ≤ 2 ∧ 2 ≤ e)]
          rw [primeCountIn_step 2 e (by omega), if_pos Nat.prime_two]
        · rw [if_neg (by omega : ¬(s ≤ 2 ∧ 2 ≤ e))]
          rw [primeCountIn_step s e (by omega)]
          have hnp : ¬ Nat.Prime s := by
            intro hp
            have h2d : (2 : Nat) ∣ s := Nat.dvd_iff_mod_eq_zero.mpr hpar
            rcases hp.eq_one_or_self_of_dvd 2 h2d with h' | h' <;> omega
          rw [if_neg hnp]
      · -- s odd ≥ 3: the odd scan starts at s itself
        have e1 : (if (s % 2 == 0) = true then s + 1 else s) = s := by
          simp [hpar]
        have hs3 : 3 ≤ s := by omega
        have e2 : (if s < 3 then 3 else s) = s := by
          rw [if_neg (by omega)]
        rw [e1, e2, oddCountF_eq e (e + 1) s hs3 hpar (by omega)]
        rw [if_neg (by omega : ¬(s ≤ 2 ∧ 2 ≤ e))]
        omega

/-- The batching loop of `count_primes_on_shard` (`prime_bench.cpp` lines
149–157): `for (batch_start = start; batch_start <= end; batch_start +=
batch_size) batch_primes += count_primes_in_range(batch_start,
min(batch_start + batch_size - 1, end))` (the `yield` between batches has
no effect on the count).  Structural fuel bounds the iteration count. -/
def batchLoopF : Nat → Nat → Nat → Nat → Nat
  | 0, _, _, _ => 0
  | fuel + 1, batch_start, e, batch_size =>
    if batch_start ≤ e then
      count_primes_in_range batch_start (min (batch_start + batch_size - 1) e) +
        batchLoopF fuel (batch_start + batch_size) e batch_size
    else 0

/-- The per-task computation of `count_primes_on_shard` (`prime_bench.cpp`
lines 136–159): task bounds `start = task_id * numbers_per_task + 1`,
`end = (task_id + 1) * numbers_per_task`, batch size 1000 (or 2000 above
`10^7`), batches summed. -/
def count_primes_on_task (task_id npt : Nat) : Nat :=
  batchLoopF ((task_id + 1) * npt + 1) (task_id * npt + 1) ((task_id + 1) * npt)
    (if 10000000 < task_id * npt + 1 then 2000 else 1000)

/-- Splitting a count into contiguous batches does not change it. -/
lemma batchLoopF_eq (e size : Nat) (hsize : 0 < size) :
    ∀ fuel bs, e + 1 ≤ bs + fuel →
      batchLoopF fuel bs e size = primeCountIn bs e := by
  intro fuel
  induction fuel with
  | zero =>
    intro bs hfuel
    rw [batchLoopF]
    exact (primeCountIn_of_lt bs e (by omega)).symm
  | succ fuel ih =>
    intro bs hfuel
    rw [batchLoopF]
    by_cases hbse : bs ≤ e
    · rw [if_pos hbse, count_primes_in_range_eq,
        ih (bs + size) (by omega)]
      by_cases hfit : bs + size - 1 ≤ e
      · rw [min_eq_left hfit]
        have := primeCountIn_append bs (bs + size - 1) e (by omega) hfit
        have hb1 : bs + size - 1 + 1 = bs + size := by omega
        rw [hb1] at this
        omega
      · rw [min_eq_right (by omega)]
        rw [primeCountIn_of_lt (bs + size) e (by omega)]
        omega
    · rw [if_neg hbse]
      exact (primeCountIn_of_lt bs e (by omega)).symm

/-- One `prime_bench` task counts exactly the primes of its sub-range. -/
lemma count_primes_on_task_eq (task_id npt : Nat) :
    count_primes_on_task task_id npt =
      primeCountIn (task_id * npt + 1) ((task_id + 1) * npt) := by
  unfold count_primes_on_task
  apply batchLoopF_eq
  · by_cases h : 10000000 < task_id * npt + 1
    · rw [if_pos h]; decide
    · rw [if_neg h]; decide
  · omega

/-- `parallel_prime_count_libfork` of `prime_bench.cpp` lines 70–98: the
fork-join recursion over the task-index interval `[start_task, end_task)`,
splitting at the midpoint and trial-dividing a single task's sub-range
`[start_task * chunk + 1, (start_task + 1) * chunk]` at the leaves. -/
def parallel_prime_count_libfork (start_task end_task chunk : Nat) : Nat :=
  if end_task - start_task = 0 then 0
  else if end_task - start_task = 1 then
    count_primes_in_range (start_task * chunk + 1) ((start_task + 1) * chunk)
  else
    parallel_prime_count_libfork start_task
      (start_task + (end_task - start_task) / 2) chunk +
    parallel_prime_count_libfork (start_task + (end_task - start_task) / 2)
      end_task chunk
termination_by end_task - start_task
decreasing_by
  · omega
  · omega

/-- `parallel_prime_count` of `prime_bench_lf.cpp` lines 60–79: the
fork-join recursion over the value interval `[start, end]`, splitting at
the midpoint while the range exceeds the granularity. -/
def parallel_prime_count (start end_ granularity : Nat) : Nat :=
  if end_ - start ≤ granularity then count_primes_in_range start end_
  else
    parallel_prime_count start (start + (end_ - start) / 2) granularity +
    parallel_prime_count (start + (end_ - start) / 2 + 1) end_ granularity
termination_by end_ - start
decreasing_by
  · omega
  · omega

/-- The task-indexed fork-join recursion counts the primes of the union of
its tasks' sub-ranges. -/
lemma parallel_prime_count_libfork_eq (chunk : Nat) :
    ∀ a b, a ≤ b →
      parallel_prime_count_libfork a b chunk =
        primeCountIn (a * chunk + 1) (b * chunk) := by
  have main : ∀ d a b, b - a = d → a ≤ b →
      parallel_prime_count_libfork a b chunk =
        primeCountIn (a * chunk + 1) (b * chunk) := by
    intro d
    induction d using Nat.strong_induction_on with
    | _ d ih =>
      intro a b hd hab
      rw [parallel_prime_count_libfork]
      by_cases h0 : b - a = 0
      · rw [if_pos h0]
        have hba : b = a := by omega
        subst hba
        exact (primeCountIn_of_lt _ _ (by omega)).symm
      · rw [if_neg h0]
        by_cases h1 : b - a = 1
        · rw [if_pos h1]
          have hba : b = a + 1 := by omega
          subst hba
          rw [count_primes_in_range_eq]
        · rw [if_neg h1]
          have hm1 : a + (b - a) / 2 ≤ b := by omega
          have hm0 : a ≤ a + (b - a) / 2 := by omega
          rw [ih (a + (b - a) / 2 - a) (by omega) a (a + (b - a) / 2) (by omega) hm0]
          rw [ih (b - (a + (b - a) / 2)) (by omega) (a + (b - a) / 2) b (by omega) hm1]
          have hle : a * chunk ≤ (a + (b - a) / 2) * chunk :=
            Nat.mul_le_mul_right chunk hm0
          have hle2 : (a + (b - a) / 2) * chunk ≤ b * chunk :=
            Nat.mul_le_mul_right chunk hm1
          have := primeCountIn_append (a * chunk + 1)
            ((a + (b - a) / 2) * chunk) (b * chunk) (by omega) hle2
          omega
  intro a b
  exact main (b - a) a b rfl

/-- The value-ranged fork-join recursion counts the primes of its range. -/
lemma parallel_prime_count_eq (g : Nat) :
    ∀ s e, parallel_prime_count s e g = primeCountIn s e := by
  have main : ∀ d s e, e - s = d →
      parallel_prime_count s e g = primeCountIn s e := by
    intro d
    induction d using Nat.strong_induction_on with
    | _ d ih =>
      intro s e hd
      rw [parallel_prime_count]
      by_cases h0 : e - s ≤ g
      · rw [if_pos h0, count_primes_in_range_eq]
      · rw [if_neg h0]
        have hm1 : s + (e - s) / 2 ≤ e := by omega
        rw [ih (s + (e - s) / 2 - s) (by omega) s (s + (e - s) / 2) (by omega)]
        rw [ih (e - (s + (e - s) / 2 + 1)) (by omega) (s + (e - s) / 2 + 1) e (by omega)]
        have := primeCountIn_append s (s + (e - s) / 2) e (by omega) hm1
        omega
  intro s e
  exact main (e - s) s e rfl

/-- Telescoping: the per-task counts over task ids `0, …, T-1` (contiguous
sub-ranges `[id*c+1, (id+1)*c]`) sum to the count over `[1, T*c]`. -/
lemma sum_task_counts (c : Nat) :
    ∀ T, ((List.range T).map (fun id => count_primes_on_task id c)).sum =
      primeCountIn 1 (T * c) := by
  intro T
  induction T with
  | zero =>
    rw [Nat.zero_mul]
    rw [primeCountIn_of_lt 1 0 (by omega)]
    rfl
  | succ T ih =>
    rw [List.range_succ, List.map_append, List.sum_append, ih]
    have hone : ([T].map (fun id => count_primes_on_task id c)).sum =
        count_primes_on_task T c := by simp
    rw [hone, count_primes_on_task_eq]
    have hle : T * c ≤ (T + 1) * c := Nat.mul_le_mul_right c (by omega)
    have hsplit := primeCountIn_append 1 (T * c) ((T + 1) * c) (by omega) hle
    have hTc : T.succ * c = (T + 1) * c := rfl
    rw [hTc]
    omega
  
/-- The reference counts over `[1, m]` and `[2, m]` agree (1 is not prime). -/
lemma primeCountIn_one_two (m : Nat) : primeCountIn 1 m = primeCountIn 2 m := by
  by_cases h1 : 1 ≤ m
  · rw [primeCountIn_step 1 m h1, if_neg (by decide : ¬ Nat.Prime 1)]
    have h12 : (1 : Nat) + 1 = 2 := rfl
    rw [h12]
    omega
  · rw [primeCountIn_of_lt 1 m (by omega), primeCountIn_of_lt 2 m (by omega)]

/-- The union of the per-task prime lists, in task order, is strictly
increasing (tasks occupy disjoint ascending sub-ranges). -/
lemma taskUnion_pairwise (T c : Nat) :
    ((List.range T).flatMap
      (fun id => computePrimesInRange (taskStart c id) (taskEnd c id))).Pairwise
        (· < ·) := by
  rw [List.flatMap_def, List.pairwise_flatten]
  constructor
  · intro l hl
    rcases List.mem_map.mp hl with ⟨id, _, hid⟩
    rw [← hid]
    unfold computePrimesInRange
    exact List.Pairwise.sublist (List.filter_sublist _) (List.pairwise_lt_range' _ _)
  · rw [List.pairwise_map]
    refine (List.pairwise_lt_range _).imp ?_
    intro a b hab x hx y hy
    have hxa := (computePrimesInRange_mem (taskStart c a) (taskEnd c a) x).mp hx
    have hya := (computePrimesInRange_mem (taskStart c b) (taskEnd c b) y).mp hy
    have h1 : (a + 1) * c ≤ b * c := Nat.mul_le_mul_right c (by omega)
    unfold taskStart at hya
    unfold taskEnd at hxa
    omega

/-- The sequential run's recorded prime lists, concatenated in task order,
are the task-ordered union of the per-range computations. -/
lemma sequentialCompute_flatten (T c : Nat) :
    (sequentialCompute T c).1.flatMap TaskResult.primes =
      (List.range T).flatMap
        (fun id => computePrimesInRange (taskStart c id) (taskEnd c id)) := by
  unfold sequentialCompute
  rw [foldl_seqStep c (List.range T) ([], 0, 0)]
  simp only [List.nil_append]
  rw [List.flatMap_def, List.map_map, ← List.flatMap_def]
  rfl

/-- C7: worker-count invariance.  Any execution of the work-stealing loop
hands the task ids out as some permutation `order` of `0, …, T-1` split
among the workers; the total prime count is the same for every such
permutation (hence for every worker count) and equals the sequential
reference count over the same interval.  The same holds for the fork-join
recursions of `prime_bench.cpp` and `prime_bench_lf.cpp`, and for the
collecting variants the sorted union of the per-task prime lists is
exactly the sequential run's (task-ordered) output. -/
theorem worker_count_invariance (T c : Nat) (order : List Nat)
    (hperm : order.Perm (List.range T)) :
    (order.map (fun id => count_primes_on_task id c)).sum =
        count_primes_in_range 2 (T * c) ∧
    parallel_prime_count_libfork 0 T c = count_primes_in_range 2 (T * c) ∧
    (∀ g, parallel_prime_count 1 (T * c) g = count_primes_in_range 2 (T * c)) ∧
    (order.flatMap
        (fun id => computePrimesInRange (taskStart c id) (taskEnd c id))).mergeSort
          (fun a b => decide (a ≤ b)) =
      (sequentialCompute T c).1.flatMap TaskResult.primes := by
  have hcnt : count_primes_in_range 2 (T * c) = primeCountIn 1 (T * c) := by
    rw [count_primes_in_range_eq, primeCountIn_one_two]
  refine ⟨?_, ?_, ?_, ?_⟩
  · rw [(hperm.map (fun id => count_primes_on_task id c)).sum_eq,
      sum_task_counts c T, hcnt]
  · rw [parallel_prime_count_libfork_eq c 0 T (Nat.zero_le T), hcnt]
    have h01 : 0 * c + 1 = 1 := by omega
    rw [h01]
  · intro g
    rw [parallel_prime_count_eq g 1 (T * c), hcnt]
  · rw [sequentialCompute_flatten]
    have hp2 := List.Perm.flatMap_right
      (fun id => computePrimesInRange (taskStart c id) (taskEnd c id)) hperm
    have hsorted1 := @List.sorted_mergeSort Nat
      (fun a b : Nat => decide (a ≤ b))
      (fun a b c hab hbc => by
        simp only [decide_eq_true_eq] at hab hbc ⊢
        omega)
      (fun a b => by
        simp only [Bool.or_eq_true, decide_eq_true_eq]
        omega)
      (order.flatMap (fun id => computePrimesInRange (taskStart c id) (taskEnd c id)))
    have hsorted1' : ((order.flatMap
        (fun id => computePrimesInRange (taskStart c id) (taskEnd c id))).mergeSort
          (fun a b => decide (a ≤ b))).Pairwise (· ≤ ·) :=
      hsorted1.imp (fun h => by simpa using h)
    have hsorted2 : ((List.range T).flatMap
        (fun id => computePrimesInRange (taskStart c id) (taskEnd c id))).Pairwise
          (· ≤ ·) :=
      (taskUnion_pairwise T c).imp Nat.le_of_lt
    exact List.eq_of_perm_of_sorted
      ((List.mergeSort_perm _ _).trans hp2) hsorted1' hsorted2

/-- C7 witness: the theorem applied at `totalTasks = 2`, `chunkSize = 4`
with the reversed completion order `[1, 0]`. -/
theorem worker_count_invariance_witness :
    ([1, 0].Perm (List.range 2)) ∧
    (([1, 0].map (fun id => count_primes_on_task id 4)).sum =
        count_primes_in_range 2 (2 * 4) ∧
    parallel_prime_count_libfork 0 2 4 = count_primes_in_range 2 (2 * 4) ∧
    (∀ g, parallel_prime_count 1 (2 * 4) g = count_primes_in_range 2 (2 * 4)) ∧
    ([1, 0].flatMap
        (fun id => computePrimesInRange (taskStart 4 id) (taskEnd 4 id))).mergeSort
          (fun a b => decide (a ≤ b)) =
      (sequentialCompute 2 4).1.flatMap TaskResult.primes) :=
  ⟨by decide, worker_count_invariance 2 4 [1, 0] (by decide)⟩

/- ============================================================ -/
/- Configuration validation                                     -/
/- ============================================================ -/

/-- Argument validation of `minimax_prime.cpp` `main`, lines 253–260:
non-positive values fall back to the defaults `{20, 100000, 4}`, and a
chunk size above 100000 is clamped to 100000 (with a warning printed).
`atoi` results are C `int`s, modelled as mathematical integers (every
accepted value is far below `2^31`). -/
def minimaxValidate (num_tasks chunk_size num_threads : Int) : Int × Int × Int :=
  let t := if num_tasks ≤ 0 then 20 else num_tasks
  let c := if chunk_size ≤ 0 then 100000 else chunk_size
  let w := if num_threads ≤ 0 then 4 else num_threads
  let c := if 100000 < c then 100000 else c
  (t, c, w)

/-- Argument validation of `sequence_prime.cpp` `main`, lines 233–235:
non-positive values fall back to `{1, 100000, 1}`; there is no ceiling
check on the chunk size. -/
def seqValidate (num_tasks chunk_size num_threads : Int) : Int × Int × Int :=
  (if num_tasks ≤ 0 then 1 else num_tasks,
   if chunk_size ≤ 0 then 100000 else chunk_size,
   if num_threads ≤ 0 then 1 else num_threads)

/-- Argument validation of `glm5_libfork_prime.cpp` `main`, lines 309–311:
non-positive values fall back to `{20, 100000, 4}`; there is no ceiling
check on the chunk size. -/
def glmValidate (num_tasks chunk_size num_threads : Int) : Int × Int × Int :=
  (if num_tasks ≤ 0 then 20 else num_tasks,
   if chunk_size ≤ 0 then 100000 else chunk_size,
   if num_threads ≤ 0 then 4 else num_threads)

/-- C8 counterexample: `sequence_prime.cpp` recovers non-positive values to
`{1, 100000, 1}`, not to the claimed defaults `{20, 100000, 4}`, and
neither `sequence_prime.cpp` nor `glm5_libfork_prime.cpp` clamps a chunk
size above the documented ceiling (200000 is accepted unchanged). -/
theorem config_validation_counterexample :
    seqValidate 0 0 0 = (1, 100000, 1) ∧
    seqValidate 0 0 0 ≠ (20, 100000, 4) ∧
    (seqValidate 5 200000 2).2.1 = 200000 ∧
    (glmValidate 5 200000 2).2.1 = 200000 := by decide

/-- C8 amended: configuration errors are recovered locally in every
variant (never fatal, all resulting values positive), but only
`minimax_prime.cpp` uses the documented defaults `{20, 100000, 4}` AND
clamps the chunk size at the ceiling 100000; `glm5_libfork_prime.cpp`
uses those defaults without any clamp, and `sequence_prime.cpp` falls
back to `{1, 100000, 1}` without any clamp. -/
theorem config_validation (t c w : Int) :
    (0 < (minimaxValidate t c w).1 ∧ 0 < (minimaxValidate t c w).2.1 ∧
      (minimaxValidate t c w).2.1 ≤ 100000 ∧ 0 < (minimaxValidate t c w).2.2) ∧
    (t ≤ 0 ∧ c ≤ 0 ∧ w ≤ 0 →
      minimaxValidate t c w = (20, 100000, 4) ∧
      seqValidate t c w = (1, 100000, 1) ∧
      glmValidate t c w = (20, 100000, 4)) ∧
    (0 < (seqValidate t c w).1 ∧ 0 < (seqValidate t c w).2.1 ∧
      0 < (seqValidate t c w).2.2) ∧
    (0 < (glmValidate t c w).1 ∧ 0 < (glmValidate t c w).2.1 ∧
      0 < (glmValidate t c w).2.2) ∧
    (100000 < c →
      (seqValidate t c w).2.1 = c ∧ (glmValidate t c w).2.1 = c ∧
      (minimaxValidate t c w).2.1 = 100000) := by
  unfold minimaxValidate seqValidate glmValidate
  refine ⟨?_, ?_, ?_, ?_, ?_⟩
  · simp only
    split_ifs <;> refine ⟨by omega, by omega, by omega, by omega⟩
  · rintro ⟨ht, hc, hw⟩
    simp only [if_pos ht, if_pos hc, if_pos hw]
    refine ⟨?_, ?_, ?_⟩ <;> first
      | rfl
      | trivial
  · simp only
    split_ifs <;> refine ⟨by omega, by omega, by omega⟩
  · simp only
    split_ifs <;> refine ⟨by omega, by omega, by omega⟩
  · intro hc
    rw [if_neg (by omega : ¬ c ≤ 0)]
    refine ⟨by simp, by simp, ?_⟩
    simp only
    split_ifs <;> simp

/- ============================================================ -/
/- Integer widths of the task-bound arithmetic                  -/
/- ============================================================ -/

/-- Two's-complement wrap of a mathematical integer into a 32-bit `int`,
the type `prime_bench.cpp` and `test_simple.cpp` use for their task-bound
arithmetic. -/
def int32 (x : Int) : Int := (x + 2 ^ 31) % 2 ^ 32 - 2 ^ 31

/-- `start = task_id * numbers_per_task + 1` of `count_primes_on_shard`
(`prime_bench.cpp` line 138, `test_simple.cpp` line 142), computed in
32-bit `int` arithmetic. -/
def pbTaskStart (task_id npt : Int) : Int := int32 (int32 (task_id * npt) + 1)

/-- `end = (task_id + 1) * numbers_per_task` (`prime_bench.cpp` line 139,
`test_simple.cpp` line 143), computed in 32-bit `int` arithmetic. -/
def pbTaskEnd (task_id npt : Int) : Int := int32 (int32 ((task_id + 1) * npt))

/-- Values already inside the `int` range are unchanged by the wrap. -/
lemma int32_eq_self (x : Int) (h1 : -(2 ^ 31) ≤ x) (h2 : x < 2 ^ 31) :
    int32 x = x := by
  unfold int32
  have hmod : (x + 2 ^ 31) % 2 ^ 32 = x + 2 ^ 31 :=
    Int.emod_eq_of_lt (by omega) (by omega)
  omega

/-- C9 counterexample: the benchmark variants do NOT perform the
task-bound arithmetic in unsigned 64-bit integers — it is 32-bit `int`
arithmetic, which wraps: for `task_id = 21474`, `numbers_per_task =
100000` the true bound `(task_id + 1) * numbers_per_task = 2147500000`
exceeds `2^31 - 1` and the computed `int` value is negative. -/
theorem uint64_arithmetic_counterexample :
    pbTaskEnd 21474 100000 = -2147467296 ∧
    ((21474 : Int) + 1) * 100000 = 2147500000 ∧
    pbTaskEnd 21474 100000 ≠ ((21474 : Int) + 1) * 100000 := by decide

/-- C9 amended: the configurable variants do their range arithmetic in
`uint64`, but the benchmark variants (`prime_bench.cpp`,
`test_simple.cpp`) compute task bounds in 32-bit `int`.  For every input
within the documented magnitude ceiling (`totalTasks * chunkSize ≤
2 × 10^9`), no operation overflows its type: the `int` task bounds stay
at or below `2^31 - 1` (so the wrap is the identity), the `uint64` bounds
stay far below `2^64`, and every product `i * i` evaluated by the trial
division loop (`i ≤ sqrt(end) + 6`) stays far below `2^64`. -/
theorem arithmetic_within_ceiling (T c id : Nat) (hid : id < T)
    (hceil : T * c ≤ 2000000000) :
    ((id : Int) * c + 1 ≤ 2 ^ 31 - 1 ∧
     ((id : Int) + 1) * c ≤ 2 ^ 31 - 1 ∧
     pbTaskStart id c = (id : Int) * c + 1 ∧
     pbTaskEnd id c = ((id : Int) + 1) * c) ∧
    (taskStart c id < 2 ^ 64 ∧ taskEnd c id < 2 ^ 64) ∧
    (∀ i, i ≤ Nat.sqrt (taskEnd c id) + 6 → i * i < 2 ^ 64) := by
  have hbound : (id + 1) * c ≤ 2000000000 :=
    le_trans (Nat.mul_le_mul_right c (by omega)) hceil
  have hid0 : id * c ≤ 2000000000 := by
    have : id * c ≤ (id + 1) * c := Nat.mul_le_mul_right c (by omega)
    omega
  have hz1 : ((id : Int) + 1) * c = (((id + 1) * c : Nat) : Int) := by push_cast; ring
  have hz0 : (id : Int) * c = ((id * c : Nat) : Int) := by push_cast; ring
  have hI1 : ((id : Int) + 1) * c ≤ 2000000000 := by
    rw [hz1]; exact_mod_cast hbound
  have hI0 : (id : Int) * c ≤ 2000000000 := by
    rw [hz0]; exact_mod_cast hid0
  have hN0 : (0 : Int) ≤ (id : Int) * c := by positivity
  have hN1 : (0 : Int) ≤ ((id : Int) + 1) * c := by positivity
  refine ⟨⟨by omega, by omega, ?_, ?_⟩, ⟨?_, ?_⟩, ?_⟩
  · unfold pbTaskStart
    rw [int32_eq_self ((id : Int) * c) (by omega) (by omega),
      int32_eq_self _ (by omega) (by omega)]
  · unfold pbTaskEnd
    rw [int32_eq_self (((id : Int) + 1) * c) (by omega) (by omega),
      int32_eq_self (((id : Int) + 1) * c) (by omega) (by omega)]
  · unfold taskStart
    omega
  · unfold taskEnd
    omega
  · intro i hi
    unfold taskEnd at hi
    have hsq : Nat.sqrt ((id + 1) * c) ≤ 44721 := by
      have hmono : Nat.sqrt ((id + 1) * c) ≤ Nat.sqrt 2000000000 :=
        Nat.sqrt_le_sqrt hbound
      have : Nat.sqrt 2000000000 < 44722 := by
        rw [Nat.sqrt_lt]
        norm_num
      omega
    have hi' : i ≤ 44727 := by omega
    have : i * i ≤ 44727 * 44727 := Nat.mul_le_mul hi' hi'
    omega

/-- C9 amended witness: the theorem applied at the ceiling itself,
`totalTasks = 20`, `chunkSize = 10^8`, last task `id = 19`. -/
theorem arithmetic_within_ceiling_witness :
    19 < 20 ∧ 20 * 100000000 ≤ 2000000000 ∧
    ((((19 : Nat) : Int) * 100000000 + 1 ≤ 2 ^ 31 - 1 ∧
     (((19 : Nat) : Int) + 1) * 100000000 ≤ 2 ^ 31 - 1 ∧
     pbTaskStart (19 : Nat) 100000000 = ((19 : Nat) : Int) * 100000000 + 1 ∧
     pbTaskEnd (19 : Nat) 100000000 = (((19 : Nat) : Int) + 1) * 100000000) ∧
    (taskStart 100000000 19 < 2 ^ 64 ∧ taskEnd 100000000 19 < 2 ^ 64) ∧
    (∀ i, i ≤ Nat.sqrt (taskEnd 100000000 19) + 6 → i * i < 2 ^ 64)) :=
  ⟨by decide, by decide, arithmetic_within_ceiling 20 100000000 19 (by decide) (by decide)⟩

/- ============================================================ -/
/- find_primes (test_simple.cpp)                                -/
/- ============================================================ -/

/-- The odd candidate loop of `find_primes` (`test_simple.cpp` lines
60–73): `for (i = actual_start; i <= end; i += 2)`, pushing each candidate
that survives the odd trial division.  Structural fuel bounds the
iteration count. -/
def oddListF : Nat → Nat → Nat → List Nat
  | 0, _, _ => []
  | fuel + 1, i, e =>
    if i ≤ e then
      (if isOddCandidatePrime i then [i] else []) ++ oddListF fuel (i + 2) e
    else []

/-- `find_primes` of `test_simple.cpp` lines 41–75: throws
`std::invalid_argument` iff `start > end`; otherwise clamps `start` below
2 up to 2, collects the even prime 2 when in range, then scans the odd
candidates.  The error is modelled as `Except.error` with the source's
message; the `int` values on the non-error path are non-negative after
the clamp and are modelled as `Nat` from there on. -/
def find_primes (start end_ : Int) : Except String (List Nat) :=
  if end_ < start then Except.error "invalid_argument: start exceeds end"
  else
    let start := if start < 2 then 2 else start
    let s := start.toNat
    let e := end_.toNat
    let primes0 := if s ≤ 2 ∧ 2 ≤ e then [2] else []
    let a0 := if s % 2 == 0 then s + 1 else s
    let a := if a0 < 3 then 3 else a0
    Except.ok (primes0 ++ oddListF (e + 1) a e)

/-- With enough fuel, the odd candidate scan starting at an odd `a ≥ 3`
collects exactly the primes of `[a, e]` (all of which are odd). -/
lemma oddListF_mem (e : Nat) :
    ∀ fuel a, 3 ≤ a → a % 2 = 1 → e + 1 ≤ a + 2 * fuel →
      ∀ n, n ∈ oddListF fuel a e ↔ Nat.Prime n ∧ a ≤ n ∧ n ≤ e := by
  intro fuel
  induction fuel with
  | zero =>
    intro a h3 hodd hfuel n
    simp only [oddListF, List.not_mem_nil, false_iff]
    rintro ⟨_, h1, h2⟩
    omega
  | succ fuel ih =>
    intro a h3 hodd hfuel n
    rw [oddListF]
    by_cases hae : a ≤ e
    · rw [if_pos hae, List.mem_append,
        ih (a + 2) (by omega) (by omega) (by omega) n]
      constructor
      · rintro (hhd | ⟨hp, h1, h2⟩)
        · by_cases hc : isOddCandidatePrime a
          · rw [if_pos hc] at hhd
            have hna : n = a := List.mem_singleton.mp hhd
            subst hna
            exact ⟨(isOddCandidatePrime_iff n h3 hodd).mp hc, le_refl n, hae⟩
          · rw [if_neg hc] at hhd
            exact absurd hhd (List.not_mem_nil n)
        · exact ⟨hp, by omega, h2⟩
      · rintro ⟨hp, h1, h2⟩
        by_cases hna : n = a
        · subst hna
          left
          rw [if_pos ((isOddCandidatePrime_iff n h3 hodd).mpr hp)]
          exact List.mem_singleton.mpr rfl
        · right
          refine ⟨hp, ?_, h2⟩
          -- n ≠ a and n ≠ a + 1 (the latter is even ≥ 4, hence not prime)
          by_cases hna1 : n = a + 1
          · exfalso
            subst hna1
            have h2d : (2 : Nat) ∣ (a + 1) := by
              have : (a + 1) % 2 = 0 := by omega
              exact Nat.dvd_iff_mod_eq_zero.mpr this
            rcases hp.eq_one_or_self_of_dvd 2 h2d with h' | h' <;> omega
          · omega
    · rw [if_neg hae]
      simp only [List.not_mem_nil, false_iff]
      rintro ⟨_, h1, h2⟩
      omega

/-- C10: `find_primes` raises its error exactly when `start > end`; for
every `start ≤ end` it returns normally, with the returned list holding
exactly the primes of the clamped interval `[max(start, 2), end]` — so
under the precondition `start ≤ end` the error branch is unreachable. -/
theorem find_primes_error_iff (s e : Int) :
    ((∃ msg, find_primes s e = Except.error msg) ↔ e < s) ∧
    (s ≤ e → ∃ l, find_primes s e = Except.ok l ∧
      ∀ n : Nat, n ∈ l ↔ Nat.Prime n ∧ max s 2 ≤ (n : Int) ∧ (n : Int) ≤ e) := by
  constructor
  · constructor
    · rintro ⟨msg, hmsg⟩
      by_cases hse : e < s
      · exact hse
      · exfalso
        unfold find_primes at hmsg
        rw [if_neg hse] at hmsg
        exact Except.noConfusion hmsg
    · intro hse
      refine ⟨"invalid_argument: start exceeds end", ?_⟩
      unfold find_primes
      rw [if_pos hse]
  · intro hse
    unfold find_primes
    rw [if_neg (by omega : ¬ e < s)]
    refine ⟨_, rfl, ?_⟩
    intro n
    -- the clamped start and its first odd candidate
    by_cases hs2 : s < 2
    · simp only [if_pos hs2]
      have hs' : ((2 : Int)).toNat = 2 := rfl
      rw [hs']
      have ha0 : (if (2 : Nat) % 2 == 0 then 2 + 1 else 2) = 3 := rfl
      rw [ha0]
      have ha : (if (3 : Nat) < 3 then 3 else 3) = 3 := rfl
      rw [ha]
      rw [List.mem_append,
        oddListF_mem e.toNat (e.toNat + 1) 3 (by omega) (by omega) (by omega) n]
      have hmax : max s 2 = 2 := by omega
      rw [hmax]
      constructor
      · rintro (hhd | ⟨hp, h1, h2⟩)
        · by_cases h2e : (2 : Nat) ≤ 2 ∧ 2 ≤ e.toNat
          · rw [if_pos h2e] at hhd
            have hn2 : n = 2 := List.mem_singleton.mp hhd
            subst hn2
            exact ⟨Nat.prime_two, by omega, by omega⟩
          · rw [if_neg h2e] at hhd
            exact absurd hhd (List.not_mem_nil n)
        · exact ⟨hp, by omega, by omega⟩
      · rintro ⟨hp, h1, h2⟩
        have hn2 : 2 ≤ n := hp.two_le
        have hne : n ≤ e.toNat := by omega
        by_cases hn2' : n = 2
        · subst hn2'
          left
          rw [if_pos ⟨le_refl 2, by omega⟩]
          exact List.mem_singleton.mpr rfl
        · right
          exact ⟨hp, by omega, hne⟩
    · simp only [if_neg hs2]
      have hs0 : (0 : Int) ≤ s := by omega
      have hsn : (s.toNat : Int) = s := Int.toNat_of_nonneg hs0
      have hmax : max s 2 = s := by omega
      rw [hmax]
      have hs2' : 2 ≤ s.toNat := by omega
      rcases Nat.mod_two_eq_zero_or_one s.toNat with hpar | hpar
      · have ha0 : (if s.toNat % 2 == 0 then s.toNat + 1 else s.toNat) =
            s.toNat + 1 := by simp [hpar]
        rw [ha0]
        have ha : (if s.toNat + 1 < 3 then 3 else s.toNat + 1) = s.toNat + 1 := by
          rw [if_neg (by omega)]
        rw [ha]
        rw [List.mem_append,
          oddListF_mem e.toNat (e.toNat + 1) (s.toNat + 1) (by omega) (by omega)
            (by omega) n]
        constructor
        · rintro (hhd | ⟨hp, h1, h2⟩)
          · by_cases h2e : s.toNat ≤ 2 ∧ 2 ≤ e.toNat
            · rw [if_pos h2e] at hhd
              have hn2 : n = 2 := List.mem_singleton.mp hhd
              subst hn2
              exact ⟨Nat.prime_two, by omega, by omega⟩
            · rw [if_neg h2e] at hhd
              exact absurd hhd (List.not_mem_nil n)
          · exact ⟨hp, by omega, by omega⟩
        · rintro ⟨hp, h1, h2⟩
          by_cases hn2' : n = 2
          · subst hn2'
            left
            rw [if_pos ⟨by omega, by omega⟩]
            exact List.mem_singleton.mpr rfl
          · -- n is an odd prime above the even clamped start
            have hnodd : n % 2 = 1 := by
              rcases Nat.mod_two_eq_zero_or_one n with h' | h'
              · exfalso
                have h2d : (2 : Nat) ∣ n := Nat.dvd_iff_mod_eq_zero.mpr h'
                rcases hp.eq_one_or_self_of_dvd 2 h2d with h'' | h'' <;> first
                  | omega
                  | (exact absurd hp.two_le (by omega))
              · exact h'
            right
            refine ⟨hp, ?_, by omega⟩
            have : s.toNat ≤ n := by omega
            omega
      · have ha0 : (if s.toNat % 2 == 0 then s.toNat + 1 else s.toNat) =
            s.toNat := by simp [hpar]
        rw [ha0]
        have hs3 : 3 ≤ s.toNat := by omega
        have ha : (if s.toNat < 3 then 3 else s.toNat) = s.toNat := by
          rw [if_neg (by omega)]
        rw [ha]
        rw [List.mem_append,
          oddListF_mem e.toNat (e.toNat + 1) s.toNat hs3 hpar (by omega) n]
        have h2e : ¬(s.toNat ≤ 2 ∧ 2 ≤ e.toNat) := by omega
        rw [if_neg h2e]
        constructor
        · rintro (hhd | ⟨hp, h1, h2⟩)
          · exact absurd hhd (List.not_mem_nil n)
          · exact ⟨hp, by omega, by omega⟩
        · rintro ⟨hp, h1, h2⟩
          right
          exact ⟨hp, by omega, by omega⟩
